import Mathlib

/-!
Shallow embedding of the puzzle-state model and search engine of
`src/script.js` (NeuralCube).  JavaScript objects holding face colors are
modelled as insertion-ordered association lists (`List (Dir × Option FaceColor)`),
because the source reads absent keys as `undefined`, assignment appends new
keys at the end, and `Object.entries` / `Object.keys` iterate in insertion
order — all of which are observable through `encode()` and `isSolved()`.
Numbers are modelled as `ℚ`; every numeric value the state model manipulates
is a half-integer (a multiple of 1/2), on which JavaScript float arithmetic
and printing are exact.
-/

set_option maxRecDepth 4000

attribute [local semireducible] Rat.add Rat.sub Rat.mul Rat.inv Rat.ofScientific

namespace NeuralCube

/-- The three rotation axes `'x' | 'y' | 'z'`. -/
inductive Axis
  | x
  | y
  | z
deriving DecidableEq

/-- The six world-relative directions `'+X','-X','+Y','-Y','+Z','-Z'`. -/
inductive Dir
  | pX
  | nX
  | pY
  | nY
  | pZ
  | nZ
deriving DecidableEq, Fintype

/-- The six face-color labels `'R','L','U','D','F','B'`. -/
inductive FaceColor
  | R
  | L
  | U
  | D
  | F
  | B
deriving DecidableEq, Fintype

/-- Puzzle variant: `'normal'` or `'mirror'`. -/
inductive CubeType
  | normal
  | mirror
deriving DecidableEq

/-- The `faces` object of a piece: keys in insertion order, values may be
`none` (a key explicitly stored with value `undefined`). -/
abbrev Faces := List (Dir × Option FaceColor)

/-- JavaScript property read `faces[k]`: the stored value, or `undefined`
(`none`) when the key is absent. -/
def facesGet (fs : Faces) (k : Dir) : Option FaceColor :=
  match fs with
  | [] => none
  | (k', v) :: rest => if k' = k then v else facesGet rest k

/-- JavaScript property write `faces[k] = v`: updates the value in place if the
key exists (keeping its position in insertion order), otherwise appends the
key at the end. -/
def facesSet (fs : Faces) (k : Dir) (v : Option FaceColor) : Faces :=
  match fs with
  | [] => [(k, v)]
  | (k', v') :: rest => if k' = k then (k, v) :: rest else (k', v') :: facesSet rest k v

/-- An `originalPos` record `{x, y, z}`. -/
structure Coords where
  x : ℚ
  y : ℚ
  z : ℚ
deriving DecidableEq

/-- One entry of `CubeState.pieces`:
`{id, x, y, z, originalPos, faces}`. -/
structure Piece where
  id : ℕ
  x : ℚ
  y : ℚ
  z : ℚ
  originalPos : Coords
  faces : Faces
deriving DecidableEq

/-- A move `{axis, slice, dir}`. -/
structure Move where
  axis : Axis
  slice : ℚ
  dir : ℤ
deriving DecidableEq

/-- The `CubeState` object: `order`, `type`, the derived `offset = (order-1)/2`
stored at construction time, and the `pieces` array. -/
structure CubeState where
  order : ℕ
  ctype : CubeType
  offset : ℚ
  pieces : List Piece
deriving DecidableEq

instance : Inhabited Piece := ⟨⟨0, 0, 0, 0, ⟨0, 0, 0⟩, []⟩⟩

instance : Inhabited CubeState := ⟨⟨0, CubeType.normal, 0, []⟩⟩

/-- The boundary faces assigned to a solved piece at `(ox,oy,oz)`, in the
constructor's insertion order `+X, -X, +Y, -Y, +Z, -Z`. -/
def initFaces (offset ox oy oz : ℚ) : Faces :=
  (if ox = offset then [(Dir.pX, some FaceColor.R)] else []) ++
  (if ox = -offset then [(Dir.nX, some FaceColor.L)] else []) ++
  (if oy = offset then [(Dir.pY, some FaceColor.U)] else []) ++
  (if oy = -offset then [(Dir.nY, some FaceColor.D)] else []) ++
  (if oz = offset then [(Dir.pZ, some FaceColor.F)] else []) ++
  (if oz = -offset then [(Dir.nZ, some FaceColor.B)] else [])

/-- The `CubeState` constructor: a solved state with one piece per lattice
point, `id = x*order² + y*order + z`, coordinates shifted by `offset`. -/
def CubeState.init (order : ℕ) (ctype : CubeType) : CubeState :=
  let offset : ℚ := ((order : ℚ) - 1) / 2
  { order := order
    ctype := ctype
    offset := offset
    pieces :=
      (List.range order).flatMap fun x =>
        (List.range order).flatMap fun y =>
          (List.range order).map fun z =>
            let pid : ℕ := x * order * order + y * order + z
            let ox : ℚ := (x : ℚ) - offset
            let oy : ℚ := (y : ℚ) - offset
            let oz : ℚ := (z : ℚ) - offset
            { id := pid
              x := ox
              y := oy
              z := oz
              originalPos := ⟨ox, oy, oz⟩
              faces := initFaces offset ox oy oz } }

/-- Dynamic coordinate access `p[axis]`. -/
def Piece.coord (p : Piece) : Axis → ℚ
  | Axis.x => p.x
  | Axis.y => p.y
  | Axis.z => p.z

/-- `Math.round`: round half toward `+∞`. -/
def jsRound (q : ℚ) : ℤ := ⌊q + 1/2⌋

/-- The rotated lattice position `(nx, ny, nz)` computed by `applyMove`
for a piece at `(x, y, z)`; note the source tests `dir === -1` here
(any other value takes the clockwise branch). -/
def rotatedPos (axis : Axis) (dir : ℤ) (x y z : ℚ) : ℚ × ℚ × ℚ :=
  match axis with
  | Axis.x => (x, if dir = -1 then z else -z, if dir = -1 then -y else y)
  | Axis.y => (if dir = -1 then -z else z, y, if dir = -1 then x else -x)
  | Axis.z => (if dir = -1 then y else -y, if dir = -1 then -x else x, z)

/-- The face-rotation block of `applyMove`: four assignments reading from a
spread copy `oldFaces` of the original object, in the source's assignment
order; note the source tests `dir === 1` here (any other value, including
`-1`, takes the `else` branch). -/
def rotatedFaces (axis : Axis) (dir : ℤ) (fs : Faces) : Faces :=
  let old := fs
  match axis with
  | Axis.x =>
    if dir = 1 then
      facesSet (facesSet (facesSet (facesSet fs Dir.pY (facesGet old Dir.nZ))
        Dir.nZ (facesGet old Dir.nY)) Dir.nY (facesGet old Dir.pZ)) Dir.pZ (facesGet old Dir.pY)
    else
      facesSet (facesSet (facesSet (facesSet fs Dir.pY (facesGet old Dir.pZ))
        Dir.pZ (facesGet old Dir.nY)) Dir.nY (facesGet old Dir.nZ)) Dir.nZ (facesGet old Dir.pY)
  | Axis.y =>
    if dir = 1 then
      facesSet (facesSet (facesSet (facesSet fs Dir.pZ (facesGet old Dir.nX))
        Dir.nX (facesGet old Dir.nZ)) Dir.nZ (facesGet old Dir.pX)) Dir.pX (facesGet old Dir.pZ)
    else
      facesSet (facesSet (facesSet (facesSet fs Dir.pZ (facesGet old Dir.pX))
        Dir.pX (facesGet old Dir.nZ)) Dir.nZ (facesGet old Dir.nX)) Dir.nX (facesGet old Dir.pZ)
  | Axis.z =>
    if dir = 1 then
      facesSet (facesSet (facesSet (facesSet fs Dir.pY (facesGet old Dir.nX))
        Dir.nX (facesGet old Dir.nY)) Dir.nY (facesGet old Dir.pX)) Dir.pX (facesGet old Dir.pY)
    else
      facesSet (facesSet (facesSet (facesSet fs Dir.pY (facesGet old Dir.pX))
        Dir.pX (facesGet old Dir.nY)) Dir.nY (facesGet old Dir.nX)) Dir.nX (facesGet old Dir.pY)

/-- The per-piece body of `applyMove`: pieces whose coordinate on `axis` is
within `eps = 0.1` of `slice` get their position rotated (then re-snapped by
`Math.round(v*2)/2`) and their faces cycled; other pieces are untouched. -/
def movePiece (axis : Axis) (slice : ℚ) (dir : ℤ) (p : Piece) : Piece :=
  if |p.coord axis - slice| < 1/10 then
    let r := rotatedPos axis dir p.x p.y p.z
    { p with
      x := (jsRound (r.1 * 2) : ℚ) / 2
      y := (jsRound (r.2.1 * 2) : ℚ) / 2
      z := (jsRound (r.2.2 * 2) : ℚ) / 2
      faces := rotatedFaces axis dir p.faces }
  else p

/-- `CubeState.applyMove(axis, slice, dir)`. -/
def CubeState.applyMove (s : CubeState) (axis : Axis) (slice : ℚ) (dir : ℤ) : CubeState :=
  { s with pieces := s.pieces.map (movePiece axis slice dir) }

/-- `applyMove` with a packaged `Move`. -/
def CubeState.applyMoveM (s : CubeState) (m : Move) : CubeState :=
  s.applyMove m.axis m.slice m.dir

/-- Applying a list of moves in order. -/
def applyMoves (s : CubeState) (ms : List Move) : CubeState :=
  ms.foldl CubeState.applyMoveM s

/-- The `{...p}` piece copy performed by `clone()` (fresh objects with the
same field values). -/
def clonePiece (p : Piece) : Piece :=
  { id := p.id
    x := p.x
    y := p.y
    z := p.z
    originalPos := ⟨p.originalPos.x, p.originalPos.y, p.originalPos.z⟩
    faces := p.faces }

/-- `CubeState.clone()`: builds a fresh solved state of the same order/type,
then replaces its pieces with copies of this state's pieces. -/
def CubeState.clone (s : CubeState) : CubeState :=
  let cloned := CubeState.init s.order s.ctype
  { cloned with pieces := s.pieces.map clonePiece }

/-- The `expectedFaces` object computed inside `isSolved`, keyed by the
piece's current position, in the source's insertion order. -/
def expectedFaces (offset : ℚ) (p : Piece) : List (Dir × FaceColor) :=
  (if p.x = offset then [(Dir.pX, FaceColor.R)] else []) ++
  (if p.x = -offset then [(Dir.nX, FaceColor.L)] else []) ++
  (if p.y = offset then [(Dir.pY, FaceColor.U)] else []) ++
  (if p.y = -offset then [(Dir.nY, FaceColor.D)] else []) ++
  (if p.z = offset then [(Dir.pZ, FaceColor.F)] else []) ++
  (if p.z = -offset then [(Dir.nZ, FaceColor.B)] else [])

/-- Rank of a direction key under JavaScript's default string sort
(`'+X' < '+Y' < '+Z' < '-X' < '-Y' < '-Z'` by UTF-16 code units). -/
def dirRank : Dir → ℕ
  | Dir.pX => 0
  | Dir.pY => 1
  | Dir.pZ => 2
  | Dir.nX => 3
  | Dir.nY => 4
  | Dir.nZ => 5

/-- `Array.prototype.sort()` on a list of direction keys. -/
def sortDirs (l : List Dir) : List Dir :=
  List.insertionSort (fun a b => dirRank a ≤ dirRank b) l

/-- Lookup in the `expectedFaces` object (its keys are distinct). -/
def expectedGet (l : List (Dir × FaceColor)) (k : Dir) : Option FaceColor :=
  match l with
  | [] => none
  | (k', v) :: rest => if k' = k then some v else expectedGet rest k

/-- The per-piece check of `isSolved`: position within `eps` of
`originalPos`, then sorted key lists of `expectedFaces` and `piece.faces`
must have equal length, then every expected key must hold exactly the
expected color. -/
def pieceSolved (offset : ℚ) (p : Piece) : Bool :=
  if 1/10 < |p.x - p.originalPos.x| ∨ 1/10 < |p.y - p.originalPos.y| ∨
      1/10 < |p.z - p.originalPos.z| then
    false
  else
    let expected := expectedFaces offset p
    let expectedKeys := sortDirs (expected.map Prod.fst)
    let actualKeys := sortDirs (p.faces.map Prod.fst)
    if expectedKeys.length ≠ actualKeys.length then
      false
    else
      expectedKeys.all fun k => facesGet p.faces k = expectedGet expected k

/-- `CubeState.isSolved()`. -/
def CubeState.isSolved (s : CubeState) : Bool :=
  s.pieces.all (pieceSolved s.offset)

/-- The lattice coordinates on one axis for a given order: the values
`-range, -range+1, …, range` enumerated by the slice loop of
`generateLegalMoves` (with `range = (order-1)/2`). -/
def latticeCoords (order : ℕ) : List ℚ :=
  (List.range order).map fun (k : ℕ) => (k : ℚ) - ((order : ℚ) - 1) / 2

/-- `generateLegalMoves(order)`: for each axis, each slice coordinate from
`-range` to `range` in steps of 1 (skipping the center slice `0` of an
odd-order cube), and each direction `1, -1`, emit a move. -/
def generateLegalMoves (order : ℕ) : List Move :=
  [Axis.x, Axis.y, Axis.z].flatMap fun axis =>
    (latticeCoords order).flatMap fun slice =>
      if order % 2 = 1 ∧ slice = 0 then []
      else [(1 : ℤ), -1].map fun dir => { axis := axis, slice := slice, dir := dir }

/-- `filterMoves(moves, lastMove)`: drop the exact inverse of the last move. -/
def filterMoves (moves : List Move) (lastMove : Option Move) : List Move :=
  match lastMove with
  | none => moves
  | some lm =>
    moves.filter fun m => ¬(m.axis = lm.axis ∧ m.slice = lm.slice ∧ m.dir = -lm.dir)

/-- The per-piece contribution to `heuristic`: 1 if the position is wrong
(within `eps`), otherwise one for each boundary direction of the current
position whose face entry is not the solved color. -/
def pieceCost (offset : ℚ) (p : Piece) : ℕ :=
  if 1/10 < |p.x - p.originalPos.x| ∨ 1/10 < |p.y - p.originalPos.y| ∨
      1/10 < |p.z - p.originalPos.z| then
    1
  else
    (if p.x = offset ∧ facesGet p.faces Dir.pX ≠ some FaceColor.R then 1 else 0) +
    (if p.x = -offset ∧ facesGet p.faces Dir.nX ≠ some FaceColor.L then 1 else 0) +
    (if p.y = offset ∧ facesGet p.faces Dir.pY ≠ some FaceColor.U then 1 else 0) +
    (if p.y = -offset ∧ facesGet p.faces Dir.nY ≠ some FaceColor.D then 1 else 0) +
    (if p.z = offset ∧ facesGet p.faces Dir.pZ ≠ some FaceColor.F then 1 else 0) +
    (if p.z = -offset ∧ facesGet p.faces Dir.nZ ≠ some FaceColor.B then 1 else 0)

/-- `heuristic(state) = Math.ceil(cost / 4)`. -/
def heuristic (s : CubeState) : ℕ :=
  (⌈(((s.pieces.map (pieceCost s.offset)).sum : ℚ)) / 4⌉).toNat

/-- Decimal digit character. -/
def digitChar (n : ℕ) : Char :=
  if n = 0 then '0' else if n = 1 then '1' else if n = 2 then '2'
  else if n = 3 then '3' else if n = 4 then '4' else if n = 5 then '5'
  else if n = 6 then '6' else if n = 7 then '7' else if n = 8 then '8'
  else if n = 9 then '9' else '*'

/-- Decimal digits, fuel-based so that the kernel can evaluate it
(`fuel > n` always suffices). -/
def natCharsGo : ℕ → ℕ → List Char
  | 0, _ => []
  | fuel + 1, n =>
    if n < 10 then [digitChar n]
    else natCharsGo fuel (n / 10) ++ [digitChar (n % 10)]

/-- Decimal digits of a natural number, most significant first. -/
def natChars (n : ℕ) : List Char := natCharsGo (n + 1) n

/-- JavaScript printing of a nonnegative half-integer: the integer part in
decimal, followed by `.5` when the denominator is 2.  (Values with other
denominators never occur in the state model.) -/
def nonnegRatChars (q : ℚ) : List Char :=
  if q.den = 1 then natChars q.num.toNat
  else natChars (⌊q⌋).toNat ++ ['.', '5']

/-- JavaScript printing `${q}` of a half-integer (note `String(-0) = "0"`,
matching the absence of a negative zero in `ℚ`). -/
def ratChars (q : ℚ) : List Char :=
  if q < 0 then '-' :: nonnegRatChars (-q) else nonnegRatChars q

/-- The two characters of a direction key `'+X'` … `'-Z'`. -/
def dirChars : Dir → List Char
  | Dir.pX => ['+', 'X']
  | Dir.nX => ['-', 'X']
  | Dir.pY => ['+', 'Y']
  | Dir.nY => ['-', 'Y']
  | Dir.pZ => ['+', 'Z']
  | Dir.nZ => ['-', 'Z']

/-- The character of a face color. -/
def colorChar : FaceColor → Char
  | FaceColor.R => 'R'
  | FaceColor.L => 'L'
  | FaceColor.U => 'U'
  | FaceColor.D => 'D'
  | FaceColor.F => 'F'
  | FaceColor.B => 'B'

/-- One `Object.entries` element rendered as `` `${dir}:${color || 'N'}` ``. -/
def entryChars (e : Dir × Option FaceColor) : List Char :=
  dirChars e.1 ++ ':' :: [match e.2 with
    | some c => colorChar c
    | none => 'N']

/-- `Array.prototype.join(sep)`. -/
def joinSep (sep : Char) : List (List Char) → List Char
  | [] => []
  | [a] => a
  | a :: b :: rest => a ++ sep :: joinSep sep (b :: rest)

/-- The face string of a piece: entries joined by `','`. -/
def faceStrChars (fs : Faces) : List Char :=
  joinSep ',' (fs.map entryChars)

/-- The token `` `${id}:${x},${y},${z},${faceStr}` `` built for one piece. -/
def tokenChars (p : Piece) : List Char :=
  natChars p.id ++ ':' ::
    (ratChars p.x ++ ',' :: (ratChars p.y ++ ',' :: (ratChars p.z ++ ',' ::
      faceStrChars p.faces)))

/-- JavaScript string comparison: lexicographic by UTF-16 code units
(a proper prefix compares smaller). -/
def lexLe : List Char → List Char → Bool
  | [], _ => true
  | _ :: _, [] => false
  | a :: as, b :: bs => if a = b then lexLe as bs else decide (a.toNat < b.toNat)

/-- The string order used by `Array.prototype.sort()` on the tokens. -/
def TokenLe (a b : List Char) : Prop := lexLe a b = true

instance : DecidableRel TokenLe := fun a b => decEq (lexLe a b) true

/-- `CubeState.encode()`: per-piece tokens, sorted, joined by `'|'`
(modelled as the character list of the produced string). -/
def CubeState.encode (s : CubeState) : List Char :=
  joinSep '|' (List.insertionSort TokenLe (s.pieces.map tokenChars))

/-- The current position of a piece. -/
def piecePos (p : Piece) : ℚ × ℚ × ℚ := (p.x, p.y, p.z)

/-- The `originalPos` of a piece as a triple. -/
def pieceOrigPos (p : Piece) : ℚ × ℚ × ℚ := (p.originalPos.x, p.originalPos.y, p.originalPos.z)

/-- The `order³` lattice points of the cube, in constructor order. -/
def latticePoints (order : ℕ) : List (ℚ × ℚ × ℚ) :=
  let offset : ℚ := ((order : ℚ) - 1) / 2
  (List.range order).flatMap fun (x : ℕ) =>
    (List.range order).flatMap fun (y : ℕ) =>
      (List.range order).map fun (z : ℕ) =>
        ((x : ℚ) - offset, (y : ℚ) - offset, (z : ℚ) - offset)

/-!
### Search engine, value-level model

States are modelled as pure values here; `applyMove` during search happens
on the result of `clone()`, never on a previously reached state, so the
value-level model agrees with the in-place JavaScript execution (the
store-level model below makes that non-interference explicit and proves it).
-/

/-- The neighbor generator built inside `solveWithBFS`: filter out the
inverse of the last move, then clone-and-apply each remaining move. -/
def generateNeighborsFn (allMoves : List Move) (state : CubeState) (lastMove : Option Move) :
    List (CubeState × Move) :=
  (filterMoves allMoves lastMove).map fun move => (state.clone.applyMoveM move, move)

/-- A BFS queue entry `{state, moves, depth}`. -/
structure BfsNode where
  state : CubeState
  moves : List Move
  depth : ℕ

/-- The neighbor loop of `bfsSolve`: skip already-visited encodings,
otherwise mark visited, append to the queue and count the expansion. -/
def bfsExpand (moves : List Move) (depth : ℕ) :
    List (CubeState × Move) → List (List Char) → List BfsNode → ℕ →
      List (List Char) × List BfsNode × ℕ
  | [], visited, queue, nodes => (visited, queue, nodes)
  | (next, mv) :: rest, visited, queue, nodes =>
    let encoded := next.encode
    if visited.contains encoded then bfsExpand moves depth rest visited queue nodes
    else
      bfsExpand moves depth rest (encoded :: visited)
        (queue ++ [⟨next, moves ++ [mv], depth + 1⟩]) (nodes + 1)

/-- The `while` loop of `bfsSolve`, with explicit fuel (the source loop
always terminates because `maxNodes` bounds the number of enqueues; fuel
exhaustion is mapped to the same `moves: null` outcome). -/
def bfsLoop (isGoal : CubeState → Bool) (gen : CubeState → Option Move → List (CubeState × Move))
    (maxDepth maxNodes : ℕ) :
    ℕ → List BfsNode → List (List Char) → ℕ → Option (List Move)
  | 0, _, _, _ => none
  | _ + 1, [], _, _ => none
  | fuel + 1, node :: rest, visited, nodes =>
    if isGoal node.state then some node.moves
    else if maxDepth ≤ node.depth then bfsLoop isGoal gen maxDepth maxNodes fuel rest visited nodes
    else if maxNodes ≤ nodes then none
    else
      let neighbors := gen node.state node.moves.getLast?
      let r := bfsExpand node.moves node.depth neighbors visited rest nodes
      bfsLoop isGoal gen maxDepth maxNodes fuel r.2.1 r.1 r.2.2

/-- `bfsSolve(startState, isSolved, generateNeighbors, {maxDepth, maxNodes})`,
returning `result.moves` (`none` for `moves: null`). -/
def bfsSolve (startState : CubeState) (isGoal : CubeState → Bool)
    (gen : CubeState → Option Move → List (CubeState × Move))
    (maxDepth maxNodes fuel : ℕ) : Option (List Move) :=
  bfsLoop isGoal gen maxDepth maxNodes fuel [⟨startState, [], 0⟩] [startState.encode] 0

/-- Which per-iteration budget of IDA* was exceeded. -/
inductive LimitKind
  | nodes
  | time
deriving DecidableEq

/-- The result object of the inner recursive `search` of `idaStarSearch`:
`{found: true, moves, threshold}`, `{found: false, limitReached}`, or
`{found: false, nextThreshold}` with `none` standing for `Infinity`. -/
inductive SearchOutcome
  | found : List Move → ℕ → SearchOutcome
  | limited : LimitKind → SearchOutcome
  | pruned : Option ℕ → SearchOutcome
deriving DecidableEq

/-- `Math.min` on `nextThreshold` values, `none` being `Infinity`. -/
def optMin : Option ℕ → Option ℕ → Option ℕ
  | none, b => b
  | some a, none => some a
  | some a, some b => some (min a b)

/-- The invert-pruning test `lastMove && lastMove.axis === move.axis && …`. -/
def isInverse (lastMove : Option Move) (m : Move) : Bool :=
  match lastMove with
  | none => false
  | some lm => decide (lm.axis = m.axis ∧ lm.slice = m.slice ∧ m.dir = -lm.dir)

/-- Parameters of one `idaStarSearch` invocation: the goal test and neighbor
generator passed in, the depth bound, the per-iteration node budget (the
source fixes it to 1000000), and the time-budget oracle: `timeUp n` tells
whether `Date.now() - startTime >= maxTime` when read by the `n`-th expanded
node (real time is nondeterministic input, so it is universally quantified). -/
structure IdaCtx where
  isGoal : CubeState → Bool
  neighbors : CubeState → Option Move → List (CubeState × Move)
  maxDepth : ℕ
  maxNodes : ℕ
  timeUp : ℕ → Bool

/-- The `for (const {state, move} of neighbors)` loop of the inner `search`,
parameterized by the recursive call `recur`; threads the visited set and the
node counter, accumulates the minimum `nextThreshold`, and propagates
`found` and `limitReached` results immediately. -/
def idaSearchGo (recur : CubeState → Move → List (List Char) → ℕ → SearchOutcome × List (List Char) × ℕ)
    (lastMove : Option Move) :
    List (CubeState × Move) → Option ℕ → List (List Char) → ℕ →
      SearchOutcome × List (List Char) × ℕ
  | [], minT, visited, nodes => (SearchOutcome.pruned minT, visited, nodes)
  | (next, mv) :: rest, minT, visited, nodes =>
    if isInverse lastMove mv then idaSearchGo recur lastMove rest minT visited nodes
    else
      match recur next mv visited nodes with
      | (SearchOutcome.found p t, v', n') => (SearchOutcome.found p t, v', n')
      | (SearchOutcome.limited k, v', n') => (SearchOutcome.limited k, v', n')
      | (SearchOutcome.pruned nt, v', n') =>
        idaSearchGo recur lastMove rest (optMin minT nt) v' n'

/-- The inner recursive `search(node, g, threshold, path, lastMove, visited)`
of `idaStarSearch`; `nodes` is the running `nodesExpanded` counter.  The
recursion is on `maxDepth - g`: past the `g >= maxDepth` check the function
cannot recurse. -/
def idaSearch (ctx : IdaCtx) (threshold : ℕ) (node : CubeState) (g : ℕ) (path : List Move)
    (lastMove : Option Move) (visited : List (List Char)) (nodes : ℕ) :
    SearchOutcome × List (List Char) × ℕ :=
  let nodes1 := nodes + 1
  if ctx.maxNodes ≤ nodes1 then (SearchOutcome.limited LimitKind.nodes, visited, nodes1)
  else if ctx.timeUp nodes1 then (SearchOutcome.limited LimitKind.time, visited, nodes1)
  else
    let f := g + heuristic node
    if threshold < f then (SearchOutcome.pruned (some f), visited, nodes1)
    else if ctx.isGoal node then (SearchOutcome.found path f, visited, nodes1)
    else if h : ctx.maxDepth ≤ g then (SearchOutcome.pruned none, visited, nodes1)
    else
      let encoded := node.encode
      if visited.contains encoded then (SearchOutcome.pruned none, visited, nodes1)
      else
        idaSearchGo
          (fun next mv v n =>
            idaSearch ctx threshold next (g + 1) (path ++ [mv]) (some mv) v n)
          lastMove (ctx.neighbors node lastMove) none (encoded :: visited) nodes1
termination_by ctx.maxDepth + 1 - g
decreasing_by omega

/-- The hard threshold cap `maxThreshold = 15` of `idaStarSearch`. -/
def idaMaxThreshold : ℕ := 15

/-- The per-iteration node budget `maxNodes = 1000000` of `idaStarSearch`. -/
def idaMaxNodes : ℕ := 1000000

/-- Final result of `idaStarSearch`: a move list, or `moves: null`. -/
inductive IdaResult
  | success : List Move → IdaResult
  | failure : IdaResult
deriving DecidableEq

/-- The outer `while (threshold < maxThreshold)` loop of `idaStarSearch`,
with explicit fuel (`none` meaning the fuel ran out before the loop
exited); `lastThreshold` starts at `-1`. -/
def idaLoop (ctx : IdaCtx) (s : CubeState) :
    ℕ → ℕ → ℤ → ℕ → Option IdaResult
  | 0, _, _, _ => none
  | fuel + 1, threshold, lastThreshold, nodes =>
    if threshold < idaMaxThreshold then
      match idaSearch ctx threshold s 0 [] none [] nodes with
      | (SearchOutcome.found mv _, _, _) => some (IdaResult.success mv)
      | (SearchOutcome.limited _, _, _) => some IdaResult.failure
      | (SearchOutcome.pruned none, _, _) => some IdaResult.failure
      | (SearchOutcome.pruned (some t), _, n') =>
        if t = threshold then some IdaResult.failure
        else if (threshold : ℤ) = lastThreshold then some IdaResult.failure
        else idaLoop ctx s fuel t (threshold : ℤ) n'
    else some IdaResult.failure

/-- `idaStarSearch(state, isSolved, generateNeighbors, maxDepth, onProgress)`:
the initial threshold is `heuristic(state)`. -/
def idaStarSearch (ctx : IdaCtx) (s : CubeState) (fuel : ℕ) : Option IdaResult :=
  idaLoop ctx s fuel (heuristic s) (-1) 0

/-- `BFS_CONFIG.maxDepth[configKey] || 20`. -/
def bfsCfgMaxDepth (order : ℕ) (ctype : CubeType) : ℕ :=
  match ctype with
  | CubeType.mirror => 22
  | CubeType.normal =>
    if order = 2 then 14 else if order = 3 then 22
    else if order = 4 then 8 else if order = 5 then 10 else 20

/-- `BFS_CONFIG.maxNodes[configKey] || 100000`. -/
def bfsCfgMaxNodes (order : ℕ) (ctype : CubeType) : ℕ :=
  match ctype with
  | CubeType.mirror => 1000000
  | CubeType.normal =>
    if order = 2 then 500000 else if order = 3 then 1000000
    else if order = 4 then 50000 else if order = 5 then 100000 else 100000

/-!
### Search engine, store-level model

`CubeState` objects live in a store (the heap); every `clone()` allocates
a fresh cell and `applyMove` mutates the cell it is called on.  This model
makes the in-place mutation of the source explicit, so that the frame
property (the search never touches the state object it was given) is a
theorem rather than an artifact of value semantics.
-/

/-- The heap of `CubeState` objects; a reference is an index. -/
abbrev Store := List CubeState

/-- Allocate a new object, returning its reference. -/
def alloc (st : Store) (v : CubeState) : Store × ℕ := (st ++ [v], st.length)

/-- Read the object behind a reference. -/
def getRef (st : Store) (r : ℕ) : CubeState := st.getD r default

/-- Mutate the object behind a reference. -/
def setRef (st : Store) (r : ℕ) (v : CubeState) : Store := st.set r v

/-- Store-level neighbor generation: for each move surviving the filter,
`clone()` (a fresh allocation) then `applyMove` on the fresh object. -/
def genNeighborsGo (r : ℕ) : List Move → Store → Store × List (ℕ × Move)
  | [], st => (st, [])
  | m :: rest, st =>
    let a := alloc st (getRef st r).clone
    let st2 := setRef a.1 a.2 ((getRef a.1 a.2).applyMoveM m)
    let res := genNeighborsGo r rest st2
    (res.1, (a.2, m) :: res.2)

/-- The `generateNeighbors` closure of `solveWithBFS`, store level. -/
def genNeighborsSt (allMoves : List Move) (st : Store) (r : ℕ) (lastMove : Option Move) :
    Store × List (ℕ × Move) :=
  genNeighborsGo r (filterMoves allMoves lastMove) st

/-- Store-level neighbor loop of `bfsSolve`. -/
def bfsExpandSt (st : Store) (moves : List Move) (depth : ℕ) :
    List (ℕ × Move) → List (List Char) → List (ℕ × List Move × ℕ) → ℕ →
      List (List Char) × List (ℕ × List Move × ℕ) × ℕ
  | [], visited, queue, nodes => (visited, queue, nodes)
  | (r, mv) :: rest, visited, queue, nodes =>
    let encoded := (getRef st r).encode
    if visited.contains encoded then bfsExpandSt st moves depth rest visited queue nodes
    else
      bfsExpandSt st moves depth rest (encoded :: visited)
        (queue ++ [(r, moves ++ [mv], depth + 1)]) (nodes + 1)

/-- Store-level `while` loop of `bfsSolve`. -/
def bfsLoopSt (isGoal : CubeState → Bool) (allMoves : List Move) (maxDepth maxNodes : ℕ) :
    ℕ → Store → List (ℕ × List Move × ℕ) → List (List Char) → ℕ →
      Store × Option (List Move)
  | 0, st, _, _, _ => (st, none)
  | _ + 1, st, [], _, _ => (st, none)
  | fuel + 1, st, (r, moves, depth) :: rest, visited, nodes =>
    if isGoal (getRef st r) then (st, some moves)
    else if maxDepth ≤ depth then
      bfsLoopSt isGoal allMoves maxDepth maxNodes fuel st rest visited nodes
    else if maxNodes ≤ nodes then (st, none)
    else
      let gn := genNeighborsSt allMoves st r moves.getLast?
      let e := bfsExpandSt gn.1 moves depth gn.2 visited rest nodes
      bfsLoopSt isGoal allMoves maxDepth maxNodes fuel gn.1 e.2.1 e.1 e.2.2

/-- Store-level neighbor loop of the inner IDA* `search`. -/
def idaSearchGoSt
    (recur : ℕ → Move → Store → List (List Char) → ℕ → Store × SearchOutcome × List (List Char) × ℕ)
    (lastMove : Option Move) :
    List (ℕ × Move) → Option ℕ → Store → List (List Char) → ℕ →
      Store × SearchOutcome × List (List Char) × ℕ
  | [], minT, st, visited, nodes => (st, SearchOutcome.pruned minT, visited, nodes)
  | (rn, mv) :: rest, minT, st, visited, nodes =>
    if isInverse lastMove mv then idaSearchGoSt recur lastMove rest minT st visited nodes
    else
      match recur rn mv st visited nodes with
      | (st', SearchOutcome.found p t, v', n') => (st', SearchOutcome.found p t, v', n')
      | (st', SearchOutcome.limited k, v', n') => (st', SearchOutcome.limited k, v', n')
      | (st', SearchOutcome.pruned nt, v', n') =>
        idaSearchGoSt recur lastMove rest (optMin minT nt) st' v' n'

/-- Store-level inner `search` of `idaStarSearch`. -/
def idaSearchSt (isGoal : CubeState → Bool) (allMoves : List Move)
    (maxDepth maxNodes : ℕ) (timeUp : ℕ → Bool) (threshold : ℕ) (r : ℕ) (g : ℕ)
    (path : List Move) (lastMove : Option Move) (st : Store) (visited : List (List Char))
    (nodes : ℕ) : Store × SearchOutcome × List (List Char) × ℕ :=
  let nodes1 := nodes + 1
  if maxNodes ≤ nodes1 then (st, SearchOutcome.limited LimitKind.nodes, visited, nodes1)
  else if timeUp nodes1 then (st, SearchOutcome.limited LimitKind.time, visited, nodes1)
  else
    let f := g + heuristic (getRef st r)
    if threshold < f then (st, SearchOutcome.pruned (some f), visited, nodes1)
    else if isGoal (getRef st r) then (st, SearchOutcome.found path f, visited, nodes1)
    else if h : maxDepth ≤ g then (st, SearchOutcome.pruned none, visited, nodes1)
    else
      let encoded := (getRef st r).encode
      if visited.contains encoded then (st, SearchOutcome.pruned none, visited, nodes1)
      else
        let gn := genNeighborsSt allMoves st r lastMove
        idaSearchGoSt
          (fun rn mv st' v n =>
            idaSearchSt isGoal allMoves maxDepth maxNodes timeUp threshold rn (g + 1)
              (path ++ [mv]) (some mv) st' v n)
          lastMove gn.2 none gn.1 (encoded :: visited) nodes1
termination_by maxDepth + 1 - g
decreasing_by omega

/-- Store-level outer loop of `idaStarSearch`. -/
def idaLoopSt (isGoal : CubeState → Bool) (allMoves : List Move) (maxDepth : ℕ)
    (timeUp : ℕ → Bool) (r : ℕ) :
    ℕ → Store → ℕ → ℤ → ℕ → Store × Option IdaResult
  | 0, st, _, _, _ => (st, none)
  | fuel + 1, st, threshold, lastThreshold, nodes =>
    if threshold < idaMaxThreshold then
      match idaSearchSt isGoal allMoves maxDepth idaMaxNodes timeUp threshold r 0 [] none st [] nodes with
      | (st', SearchOutcome.found mv _, _, _) => (st', some (IdaResult.success mv))
      | (st', SearchOutcome.limited _, _, _) => (st', some IdaResult.failure)
      | (st', SearchOutcome.pruned none, _, _) => (st', some IdaResult.failure)
      | (st', SearchOutcome.pruned (some t), _, n') =>
        if t = threshold then (st', some IdaResult.failure)
        else if (threshold : ℤ) = lastThreshold then (st', some IdaResult.failure)
        else idaLoopSt isGoal allMoves maxDepth timeUp r fuel st' t (threshold : ℤ) n'
    else (st, some IdaResult.failure)

/-- Store-level `solveWithBFS(startState, order, type)`: look up the policy
table, clone the given state, short-circuit when already solved, then run
IDA* (order 2) or BFS (otherwise); returns the final heap and
`result.moves` (`none` for a `null` result). -/
def solveWithBFSSt (st : Store) (rStart : ℕ) (order : ℕ) (ctype : CubeType)
    (timeUp : ℕ → Bool) (fuel : ℕ) : Store × Option (List Move) :=
  let maxDepth := bfsCfgMaxDepth order ctype
  let maxNodes := bfsCfgMaxNodes order ctype
  let a := alloc st (getRef st rStart).clone
  let st1 := a.1
  let r := a.2
  if (getRef st1 r).isSolved then (st1, some [])
  else
    let allMoves := generateLegalMoves order
    let isGoal := fun (state : CubeState) => state.isSolved
    if order = 2 then
      match idaLoopSt isGoal allMoves maxDepth timeUp r fuel st1 (heuristic (getRef st1 r)) (-1) 0 with
      | (st', some (IdaResult.success mv)) => (st', some mv)
      | (st', _) => (st', none)
    else
      match bfsLoopSt isGoal allMoves maxDepth maxNodes fuel st1 [(r, [], 0)] [(getRef st1 r).encode] 0 with
      | (st', some mv) => (st', some mv)
      | (st', none) => (st', none)

/-!
### Spec-side definitions

Definitions transcribing the claims' own wording, to be compared with the
source-derived definitions above.
-/

/-- The face color the solved state assigns to each world direction. -/
def solvedColor : Dir → FaceColor
  | Dir.pX => FaceColor.R
  | Dir.nX => FaceColor.L
  | Dir.pY => FaceColor.U
  | Dir.nY => FaceColor.D
  | Dir.pZ => FaceColor.F
  | Dir.nZ => FaceColor.B

/-- Whether a direction is a boundary direction of the piece's current
position (its coordinate on that axis sits at `±offset`). -/
def isBoundaryDir (offset : ℚ) (p : Piece) : Dir → Bool
  | Dir.pX => decide (p.x = offset)
  | Dir.nX => decide (p.x = -offset)
  | Dir.pY => decide (p.y = offset)
  | Dir.nY => decide (p.y = -offset)
  | Dir.pZ => decide (p.z = offset)
  | Dir.nZ => decide (p.z = -offset)

/-- The six directions. -/
def allDirs : List Dir := [Dir.pX, Dir.nX, Dir.pY, Dir.nY, Dir.pZ, Dir.nZ]

/-- Claim-side count for the heuristic: the number of pieces whose current
position differs from their original position, plus, for each piece whose
current position equals its original position, one for each boundary
direction of that position whose faces entry is not the solved color. -/
def specCost (s : CubeState) : ℕ :=
  (s.pieces.countP fun p => decide (piecePos p ≠ pieceOrigPos p)) +
    ((s.pieces.filter fun p => decide (piecePos p = pieceOrigPos p)).map fun p =>
      allDirs.countP fun d =>
        isBoundaryDir s.offset p d && decide (facesGet p.faces d ≠ some (solvedColor d))).sum

/-- Claim-side heuristic: the ceiling of `specCost / 4`. -/
def specHeuristic (s : CubeState) : ℕ :=
  (⌈((specCost s : ℚ)) / 4⌉).toNat

/-- A piece viewed as the record `(id, position, orientation mapping)`, the
orientation mapping taken extensionally as the six values the piece's
`faces` object answers for the six world directions. -/
def pieceRecord (p : Piece) :
    ℕ × (ℚ × ℚ × ℚ) ×
      (Option FaceColor × Option FaceColor × Option FaceColor ×
        Option FaceColor × Option FaceColor × Option FaceColor) :=
  (p.id, piecePos p,
    (facesGet p.faces Dir.pX, facesGet p.faces Dir.nX, facesGet p.faces Dir.pY,
      facesGet p.faces Dir.nY, facesGet p.faces Dir.pZ, facesGet p.faces Dir.nZ))

/-- A half-integer: the only coordinate values the state model produces. -/
def HalfInt (q : ℚ) : Prop := q.den = 1 ∨ q.den = 2

instance (q : ℚ) : Decidable (HalfInt q) := by unfold HalfInt; infer_instance

/-- All piece coordinates of the state are half-integers. -/
def WfCoords (s : CubeState) : Prop :=
  ∀ p ∈ s.pieces, HalfInt p.x ∧ HalfInt p.y ∧ HalfInt p.z

/-- All `originalPos` coordinates of the state are half-integers. -/
def WfOrigCoords (s : CubeState) : Prop :=
  ∀ p ∈ s.pieces, HalfInt p.originalPos.x ∧ HalfInt p.originalPos.y ∧ HalfInt p.originalPos.z

instance (s : CubeState) : Decidable (WfCoords s) := by
  unfold WfCoords
  infer_instance

instance (s : CubeState) : Decidable (WfOrigCoords s) := by
  unfold WfOrigCoords
  infer_instance

/-- The four directions in the plane perpendicular to an axis (the keys the
face-rotation block of `applyMove` assigns for that axis). -/
def planeDirs : Axis → List Dir
  | Axis.x => [Dir.pY, Dir.nY, Dir.pZ, Dir.nZ]
  | Axis.y => [Dir.pX, Dir.nX, Dir.pZ, Dir.nZ]
  | Axis.z => [Dir.pX, Dir.nX, Dir.pY, Dir.nY]

/-- Coordinate of a position triple along an axis. -/
def vCoord (axis : Axis) (v : ℚ × ℚ × ℚ) : ℚ :=
  match axis with
  | Axis.x => v.1
  | Axis.y => v.2.1
  | Axis.z => v.2.2

/-- The action of `movePiece` on the position triple alone. -/
def posMove (axis : Axis) (slice : ℚ) (dir : ℤ) (v : ℚ × ℚ × ℚ) : ℚ × ℚ × ℚ :=
  if |vCoord axis v - slice| < 1/10 then
    let r := rotatedPos axis dir v.1 v.2.1 v.2.2
    ((jsRound (r.1 * 2) : ℚ) / 2, (jsRound (r.2.1 * 2) : ℚ) / 2, (jsRound (r.2.2 * 2) : ℚ) / 2)
  else v

/-- Five direction keys that the piece with id 7 of an order-2 cube carries
after the scramble move `(y, 0.5, 1)` (three solved-state keys plus the two
keys the face rotation stored with `undefined` values). -/
def keys5 : List Dir := [Dir.pX, Dir.pY, Dir.pZ, Dir.nX, Dir.nZ]

/-- An order-2 state whose piece at index 7 carries at least the five keys
of `keys5` (with no duplicate keys).  Such a state can never satisfy
`isSolved()`, because every expected-key list of an order-2 piece has at
most 3 entries while the actual key list has at least 5. -/
def KeyPolluted (s : CubeState) : Prop :=
  s.order = 2 ∧ s.offset = 1/2 ∧ 7 < s.pieces.length ∧
    ((s.pieces.getD 7 default).faces.map Prod.fst).Nodup ∧
    keys5 ⊆ (s.pieces.getD 7 default).faces.map Prod.fst

instance (s : CubeState) : Decidable (KeyPolluted s) := by
  unfold KeyPolluted
  infer_instance

/-- Numeric value of a decimal digit character. -/
def digitVal (c : Char) : ℕ :=
  if c = '0' then 0 else if c = '1' then 1 else if c = '2' then 2
  else if c = '3' then 3 else if c = '4' then 4 else if c = '5' then 5
  else if c = '6' then 6 else if c = '7' then 7 else if c = '8' then 8
  else if c = '9' then 9 else 0

/-- Numeric value of a list of decimal digit characters. -/
def digitsVal (l : List Char) : ℕ :=
  l.foldl (fun acc c => 10 * acc + digitVal c) 0

/-- The fresh solved order-2 state. -/
def solved2 : CubeState := CubeState.init 2 CubeType.normal

/-- The scrambled order-2 state of the C1 scenario: one legal move
`(y, 0.5, 1)` applied to the fresh solved state (a depth-1 scramble). -/
def scrambled2 : CubeState := solved2.applyMoveM ⟨Axis.y, 1/2, 1⟩

/-- `solved2` after one clockwise turn of the `y = 0.5` slice. -/
def turned2 : CubeState := solved2.applyMove Axis.y (1/2) 1

/-- `solved2` after four identical turns of the `y = 0.5` slice. -/
def turned2x4 : CubeState :=
  (((solved2.applyMove Axis.y (1/2) 1).applyMove Axis.y (1/2) 1).applyMove
    Axis.y (1/2) 1).applyMove Axis.y (1/2) 1

/-- `solved2` after a turn of the `y = 0.5` slice and its exact inverse. -/
def roundtrip2 : CubeState :=
  (solved2.applyMove Axis.y (1/2) 1).applyMove Axis.y (1/2) (-1)

/-- Two order-2 states with pointwise identical `(id, position, orientation
mapping)` records: `recordB` differs from the solved state only in the
insertion order of the faces object of the piece with id 7. -/
def recordStateB : CubeState :=
  { solved2 with
    pieces := solved2.pieces.map fun p =>
      if p.id = 7 then
        { p with
          faces := [(Dir.pY, some FaceColor.U), (Dir.pX, some FaceColor.R),
            (Dir.pZ, some FaceColor.F)] }
      else p }

end NeuralCube

namespace NeuralCube

/-!
## Theorems
-/

/-- **C2** (code bug evaluated at the failing input): on a fresh solved
order-2 state, one `applyMove('y', 0.5, 1)` yields `isSolved() = false` (as
the claim states), but after four identical applications `isSolved()` is
*still* `false` — the face rotation stored `undefined`-valued keys that the
key-count comparison of `isSolved` rejects — even though every piece is back
at its original position with every direction answering its solved color. -/
theorem order2_quarter_turn_scenario :
    turned2.isSolved = false ∧ turned2x4.isSolved = false ∧
      turned2x4.pieces.map pieceRecord = solved2.pieces.map pieceRecord := by
  refine ⟨by decide, by decide, by rfl⟩

/-- **C3** (code bug evaluated at the failing input): the solved order-2
state is reachable (empty move sequence), and applying the legal move
`(y, 0.5, 1)` followed by its inverse `(y, 0.5, -1)` changes `encode()` —
the round trip restores every position and every face answer, but the face
objects have gained `undefined`-valued keys which `encode()` serializes as
`:N` tokens. -/
theorem inverse_roundtrip_encode_changes :
    roundtrip2.encode ≠ solved2.encode ∧
      roundtrip2.pieces.map pieceRecord = solved2.pieces.map pieceRecord := by
  refine ⟨by decide, by rfl⟩

end NeuralCube

namespace NeuralCube

theorem mem_inner_moves {order : ℕ} {axis : Axis} {slice : ℚ} {m : Move}
    (hm : m ∈ if order % 2 = 1 ∧ slice = 0 then ([] : List Move)
      else [(1 : ℤ), -1].map fun dir => { axis := axis, slice := slice, dir := dir }) :
    m.axis = axis ∧ m.slice = slice ∧ (m.dir = 1 ∨ m.dir = -1) := by
  split at hm
  · cases hm
  · rcases List.mem_map.1 hm with ⟨dir, hdir, rfl⟩
    simp only [List.mem_cons, List.not_mem_nil, or_false] at hdir
    rcases hdir with rfl | rfl
    · exact ⟨rfl, rfl, Or.inl rfl⟩
    · exact ⟨rfl, rfl, Or.inr rfl⟩

theorem mem_generateLegalMoves {order : ℕ} {m : Move} :
    m ∈ generateLegalMoves order ↔
      m.slice ∈ latticeCoords order ∧ ¬(order % 2 = 1 ∧ m.slice = 0) ∧
        (m.dir = 1 ∨ m.dir = -1) := by
  unfold generateLegalMoves
  constructor
  · intro h
    rcases List.mem_flatMap.1 h with ⟨axis, _, h2⟩
    rcases List.mem_flatMap.1 h2 with ⟨slice, hslice, hm⟩
    obtain ⟨hax, hsl, hdir⟩ := mem_inner_moves hm
    refine ⟨hsl ▸ hslice, ?_, hdir⟩
    intro hc
    rw [hsl] at hc
    rw [if_pos hc] at hm
    cases hm
  · rintro ⟨hslice, hc, hdir⟩
    refine List.mem_flatMap.2 ⟨m.axis, by cases m.axis <;> simp, ?_⟩
    refine List.mem_flatMap.2 ⟨m.slice, hslice, ?_⟩
    rw [if_neg hc]
    refine List.mem_map.2 ⟨m.dir, ?_, rfl⟩
    rcases hdir with h | h <;> simp [h]

theorem nodup_latticeCoords (order : ℕ) : (latticeCoords order).Nodup := by
  unfold latticeCoords
  refine List.Nodup.map ?_ (List.nodup_range order)
  intro a b hab
  have h2 : ((a : ℚ)) = (b : ℚ) := by
    have := sub_left_inj.mp hab
    exact this
  exact_mod_cast h2

theorem nodup_generateLegalMoves (order : ℕ) : (generateLegalMoves order).Nodup := by
  unfold generateLegalMoves
  rw [List.nodup_flatMap]
  constructor
  · intro axis _
    rw [List.nodup_flatMap]
    constructor
    · intro slice _
      split
      · exact List.nodup_nil
      · simp
    · refine (nodup_latticeCoords order).imp ?_
      intro a b hab
      simp only [Function.onFun]
      rw [List.disjoint_left]
      intro m hma hmb
      exact hab ((mem_inner_moves hma).2.1 ▸ (mem_inner_moves hmb).2.1)
  · refine (by simp : ([Axis.x, Axis.y, Axis.z]).Nodup).imp ?_
    intro a b hab
    simp only [Function.onFun]
    rw [List.disjoint_left]
    intro m hma hmb
    rcases List.mem_flatMap.1 hma with ⟨s1, _, h1⟩
    rcases List.mem_flatMap.1 hmb with ⟨s2, _, h2⟩
    exact hab ((mem_inner_moves h1).1 ▸ (mem_inner_moves h2).1)

theorem cast_sub_offset_eq_zero {order k : ℕ} :
    (k : ℚ) - ((order : ℚ) - 1) / 2 = 0 ↔ 2 * k + 1 = order := by
  constructor
  · intro hq
    have h2 : (2 * k + 1 : ℚ) = (order : ℚ) := by push_cast; linarith
    exact_mod_cast h2
  · intro hk
    have h2 : (2 * k + 1 : ℚ) = (order : ℚ) := by exact_mod_cast congrArg (Nat.cast : ℕ → ℚ) hk
    push_cast at h2
    linarith

theorem countP_zero_latticeCoords {order : ℕ} (h : order % 2 = 1) :
    (latticeCoords order).countP (fun s => decide (s = 0)) = 1 := by
  unfold latticeCoords
  rw [List.countP_map]
  have key : ∀ k ∈ List.range order,
      ((fun (s : ℚ) => decide (s = 0)) ∘ fun (k : ℕ) => (k : ℚ) - ((order : ℚ) - 1) / 2) k = true ↔
        (fun k => decide (k = (order - 1) / 2)) k = true := by
    intro k _
    simp only [Function.comp, decide_eq_true_eq]
    rw [cast_sub_offset_eq_zero]
    omega
  rw [List.countP_congr key]
  have : (List.range order).countP (fun k => decide (k = (order - 1) / 2)) =
      List.count ((order - 1) / 2) (List.range order) := by
    unfold List.count
    refine List.countP_congr ?_
    intro x _
    simp only [decide_eq_true_eq, beq_iff_eq]
  rw [this]
  refine List.count_eq_one_of_mem (List.nodup_range order) ?_
  rw [List.mem_range]
  omega

end NeuralCube

namespace NeuralCube

theorem length_latticeCoords (order : ℕ) : (latticeCoords order).length = order := by
  unfold latticeCoords
  rw [List.length_map, List.length_range]

theorem inner_flatMap_length {order : ℕ} (axis : Axis) (l : List ℚ) :
    (l.flatMap fun slice =>
      if order % 2 = 1 ∧ slice = 0 then ([] : List Move)
      else [(1 : ℤ), -1].map fun dir => { axis := axis, slice := slice, dir := dir }).length =
    2 * l.countP fun s => !decide (order % 2 = 1 ∧ s = 0) := by
  induction l with
  | nil => simp
  | cons a t ih =>
    rw [List.flatMap_cons, List.length_append, ih, List.countP_cons]
    by_cases hc : order % 2 = 1 ∧ a = 0
    · rw [if_pos hc, decide_eq_true hc]
      simp
    · rw [if_neg hc]
      have hd : decide (order % 2 = 1 ∧ a = 0) = false := by
        simpa using hc
      rw [hd, List.length_map]
      simp only [Bool.not_false, if_true, List.length_cons, List.length_nil]
      omega


theorem countP_not_center_even {order : ℕ} (h : order % 2 = 0) (l : List ℚ) :
    (l.countP fun s => !decide (order % 2 = 1 ∧ s = 0)) = l.length := by
  rw [List.countP_eq_length]
  intro a _
  simp [h]

theorem countP_not_center_odd {order : ℕ} (h : order % 2 = 1) :
    ((latticeCoords order).countP fun s => !decide (order % 2 = 1 ∧ s = 0)) = order - 1 := by
  have hsplit := List.length_eq_countP_add_countP (fun s => decide (s = 0)) (latticeCoords order)
  have hc : ((latticeCoords order).countP fun s => !decide (order % 2 = 1 ∧ s = 0)) =
      (latticeCoords order).countP fun s => !decide (s = 0) := by
    refine List.countP_congr ?_
    intro x _
    simp [h]
  rw [hc]
  have hcompl : ((latticeCoords order).countP fun s => !decide (s = 0)) =
      (latticeCoords order).countP fun s => ¬(decide (s = 0) = true) := by
    refine List.countP_congr ?_
    intro x _
    simp
  rw [hcompl]
  rw [countP_zero_latticeCoords h, length_latticeCoords] at hsplit
  omega

theorem length_generateLegalMoves (order : ℕ) :
    (generateLegalMoves order).length =
      if order % 2 = 1 then 6 * (order - 1) else 6 * order := by
  unfold generateLegalMoves
  rw [List.flatMap_cons, List.flatMap_cons, List.flatMap_cons, List.flatMap_nil,
    List.length_append, List.length_append, List.length_append, List.length_nil,
    inner_flatMap_length Axis.x, inner_flatMap_length Axis.y, inner_flatMap_length Axis.z]
  by_cases h : order % 2 = 1
  · rw [if_pos h, countP_not_center_odd h]
    omega
  · have h0 : order % 2 = 0 := by omega
    rw [if_neg h, countP_not_center_even h0, length_latticeCoords]
    omega

/-- **C6**: `generateLegalMoves(order)` contains exactly the moves whose
slice is a lattice coordinate of the order (excluding the center slice `0`
when the order is odd) and whose direction is `1` or `-1`, with no
duplicates, and its length is `6*(order-1)` for odd orders and `6*order`
for even orders. -/
theorem generateLegalMoves_exact (order : ℕ) :
    (∀ m : Move, m ∈ generateLegalMoves order ↔
      m.slice ∈ latticeCoords order ∧ ¬(order % 2 = 1 ∧ m.slice = 0) ∧
        (m.dir = 1 ∨ m.dir = -1)) ∧
    (generateLegalMoves order).Nodup ∧
    (generateLegalMoves order).length =
      if order % 2 = 1 then 6 * (order - 1) else 6 * order :=
  ⟨fun _ => mem_generateLegalMoves, nodup_generateLegalMoves order,
    length_generateLegalMoves order⟩

end NeuralCube

namespace NeuralCube

theorem HalfInt.exists_int {a : ℚ} (h : HalfInt a) : ∃ m : ℤ, a = (m : ℚ) / 2 := by
  rcases h with h | h
  · refine ⟨2 * a.num, ?_⟩
    have ha : ((a.num : ℚ)) / ((a.den : ℚ)) = a := Rat.num_div_den a
    rw [h] at ha
    push_cast at ha
    push_cast
    linarith
  · refine ⟨a.num, ?_⟩
    have ha : ((a.num : ℚ)) / ((a.den : ℚ)) = a := Rat.num_div_den a
    rw [h] at ha
    push_cast at ha
    linarith

theorem half_close_eq {a b : ℚ} (ha : HalfInt a) (hb : HalfInt b)
    (h : |a - b| < 1/2) : a = b := by
  obtain ⟨m, rfl⟩ := ha.exists_int
  obtain ⟨n, rfl⟩ := hb.exists_int
  have h1 : |((m - n : ℤ) : ℚ)| < 1 := by
    push_cast
    rw [show ((m : ℚ)) - n = 2 * ((m : ℚ)/2 - (n : ℚ)/2) by ring, abs_mul]
    rw [abs_of_nonneg (by norm_num : (0:ℚ) ≤ 2)]
    linarith
  have h2 : ((|m - n| : ℤ) : ℚ) < 1 := by
    rw [Int.cast_abs]
    exact h1
  have h3 : |m - n| < 1 := by exact_mod_cast h2
  rw [abs_lt] at h3
  have : m = n := by omega
  rw [this]

theorem half_eps_iff {a b : ℚ} (ha : HalfInt a) (hb : HalfInt b) :
    |a - b| < 1/10 ↔ a = b := by
  constructor
  · intro h
    exact half_close_eq ha hb (by linarith)
  · rintro rfl
    simp

theorem half_eps_le_iff {a b : ℚ} (ha : HalfInt a) (hb : HalfInt b) :
    |a - b| ≤ 1/10 ↔ a = b := by
  constructor
  · intro h
    exact half_close_eq ha hb (by linarith)
  · rintro rfl
    simp

theorem pieceWrong_iff {p : Piece} (hx : HalfInt p.x) (hy : HalfInt p.y) (hz : HalfInt p.z)
    (hox : HalfInt p.originalPos.x) (hoy : HalfInt p.originalPos.y)
    (hoz : HalfInt p.originalPos.z) :
    (1/10 < |p.x - p.originalPos.x| ∨ 1/10 < |p.y - p.originalPos.y| ∨
      1/10 < |p.z - p.originalPos.z|) ↔ piecePos p ≠ pieceOrigPos p := by
  constructor
  · intro h heq
    unfold piecePos pieceOrigPos at heq
    have e1 : p.x = p.originalPos.x := congrArg Prod.fst heq
    have e2 : p.y = p.originalPos.y := congrArg Prod.fst (congrArg Prod.snd heq)
    have e3 : p.z = p.originalPos.z := congrArg Prod.snd (congrArg Prod.snd heq)
    rcases h with h | h | h
    · rw [e1, sub_self, abs_zero] at h; norm_num at h
    · rw [e2, sub_self, abs_zero] at h; norm_num at h
    · rw [e3, sub_self, abs_zero] at h; norm_num at h
  · intro hne
    by_contra hcon
    push_neg at hcon
    obtain ⟨h1, h2, h3⟩ := hcon
    apply hne
    unfold piecePos pieceOrigPos
    have e1 := (half_eps_le_iff hx hox).1 h1
    have e2 := (half_eps_le_iff hy hoy).1 h2
    have e3 := (half_eps_le_iff hz hoz).1 h3
    rw [e1, e2, e3]

end NeuralCube

namespace NeuralCube

theorem pieceCost_eq_spec {offset : ℚ} {p : Piece}
    (hx : HalfInt p.x) (hy : HalfInt p.y) (hz : HalfInt p.z)
    (hox : HalfInt p.originalPos.x) (hoy : HalfInt p.originalPos.y)
    (hoz : HalfInt p.originalPos.z) :
    pieceCost offset p =
      if piecePos p ≠ pieceOrigPos p then 1
      else allDirs.countP fun d =>
        isBoundaryDir offset p d && decide (facesGet p.faces d ≠ some (solvedColor d)) := by
  unfold pieceCost
  by_cases hw : piecePos p ≠ pieceOrigPos p
  · rw [if_pos ((pieceWrong_iff hx hy hz hox hoy hoz).2 hw), if_pos hw]
  · rw [if_neg (fun hcon => hw ((pieceWrong_iff hx hy hz hox hoy hoz).1 hcon)), if_neg hw]
    simp only [allDirs, List.countP_cons, List.countP_nil, isBoundaryDir, solvedColor,
      Bool.and_eq_true, decide_eq_true_eq]
    ring

theorem cost_sum_eq (offset : ℚ) (l : List Piece)
    (hwf : ∀ p ∈ l, (HalfInt p.x ∧ HalfInt p.y ∧ HalfInt p.z) ∧
      (HalfInt p.originalPos.x ∧ HalfInt p.originalPos.y ∧ HalfInt p.originalPos.z)) :
    (l.map (pieceCost offset)).sum =
      l.countP (fun p => decide (piecePos p ≠ pieceOrigPos p)) +
      ((l.filter fun p => decide (piecePos p = pieceOrigPos p)).map fun p =>
        allDirs.countP fun d =>
          isBoundaryDir offset p d && decide (facesGet p.faces d ≠ some (solvedColor d))).sum := by
  induction l with
  | nil => simp
  | cons p t ih =>
    have hp := hwf p (List.mem_cons_self p t)
    have ht := fun q hq => hwf q (List.mem_cons_of_mem _ hq)
    rw [List.map_cons, List.sum_cons, ih ht,
      pieceCost_eq_spec hp.1.1 hp.1.2.1 hp.1.2.2 hp.2.1 hp.2.2.1 hp.2.2.2,
      List.countP_cons, List.filter_cons]
    by_cases hw : piecePos p ≠ pieceOrigPos p
    · rw [if_pos hw]
      have hd1 : decide (piecePos p ≠ pieceOrigPos p) = true := decide_eq_true hw
      have hd2 : decide (piecePos p = pieceOrigPos p) = false := by simpa using hw
      rw [hd1, hd2]
      simp
      omega
    · push_neg at hw
      rw [if_neg (by simpa using hw)]
      have hd1 : decide (piecePos p ≠ pieceOrigPos p) = false := by simpa using hw
      have hd2 : decide (piecePos p = pieceOrigPos p) = true := decide_eq_true hw
      rw [hd1, hd2]
      simp
      omega

/-- **C7**: `heuristic(state)` equals the ceiling of `c/4` where `c` counts
the pieces whose position is wrong plus, for each correctly positioned
piece, the boundary directions of its position whose face entry is not the
solved color — provided all coordinates are half-integers (which makes the
code's `eps = 0.1` position comparison coincide with exact equality). -/
theorem heuristic_matches_spec (s : CubeState) (h1 : WfCoords s) (h2 : WfOrigCoords s) :
    heuristic s = specHeuristic s := by
  unfold heuristic specHeuristic specCost
  rw [cost_sum_eq s.offset s.pieces (fun p hp => ⟨h1 p hp, h2 p hp⟩)]

/-- Witness for C7 at the fresh solved order-2 state. -/
theorem heuristic_matches_spec_witness : heuristic solved2 = specHeuristic solved2 :=
  heuristic_matches_spec solved2 (by decide) (by decide)

end NeuralCube

namespace NeuralCube

theorem mem_keys_facesSet_iff {fs : Faces} {k d : Dir} {v : Option FaceColor} :
    d ∈ (facesSet fs k v).map Prod.fst ↔ d = k ∨ d ∈ fs.map Prod.fst := by
  induction fs with
  | nil => simp [facesSet]
  | cons e rest ih =>
    by_cases hk : e.1 = k
    · rw [show (e :: rest : Faces) = (e.1, e.2) :: rest by rfl]
      unfold facesSet
      rw [if_pos hk]
      simp [hk]
    · rw [show (e :: rest : Faces) = (e.1, e.2) :: rest by rfl]
      unfold facesSet
      rw [if_neg hk]
      simp [ih]
      tauto

theorem keys_subset_facesSet {fs : Faces} {k : Dir} {v : Option FaceColor} :
    fs.map Prod.fst ⊆ (facesSet fs k v).map Prod.fst := by
  intro d hd
  rw [mem_keys_facesSet_iff]
  exact Or.inr hd

theorem keys_subset_rotatedFaces {fs : Faces} {axis : Axis} {dir : ℤ} :
    fs.map Prod.fst ⊆ (rotatedFaces axis dir fs).map Prod.fst := by
  intro d hd
  cases axis <;>
    (simp only [rotatedFaces]; split) <;>
    (simp only [mem_keys_facesSet_iff]; tauto)

theorem planeDirs_subset_rotatedFaces {fs : Faces} {axis : Axis} {dir : ℤ} :
    planeDirs axis ⊆ (rotatedFaces axis dir fs).map Prod.fst := by
  intro d hd
  cases axis <;>
    (simp only [planeDirs, List.mem_cons, List.not_mem_nil, or_false] at hd;
      simp only [rotatedFaces]; split) <;>
    (simp only [mem_keys_facesSet_iff]; tauto)

theorem movePiece_keys_subset {p : Piece} {axis : Axis} {slice : ℚ} {dir : ℤ} :
    p.faces.map Prod.fst ⊆ (movePiece axis slice dir p).faces.map Prod.fst := by
  unfold movePiece
  split
  · exact keys_subset_rotatedFaces
  · exact fun d hd => hd

theorem movePiece_faces_of_slice {p : Piece} {axis : Axis} {slice : ℚ} {dir : ℤ}
    (h : |p.coord axis - slice| < 1/10) :
    (movePiece axis slice dir p).faces = rotatedFaces axis dir p.faces := by
  unfold movePiece
  rw [if_pos h]

theorem applyMove_pieces_get {s : CubeState} {axis : Axis} {slice : ℚ} {dir : ℤ} {i : ℕ} :
    (s.applyMove axis slice dir).pieces[i]? = s.pieces[i]?.map (movePiece axis slice dir) := by
  unfold CubeState.applyMove
  simp

theorem applyMoves_keys_subset {i : ℕ} :
    ∀ (ms : List Move) (s : CubeState) (q r : Piece),
      s.pieces[i]? = some q → (applyMoves s ms).pieces[i]? = some r →
      q.faces.map Prod.fst ⊆ r.faces.map Prod.fst := by
  intro ms
  induction ms with
  | nil =>
    intro s q r hq hr
    unfold applyMoves at hr
    simp only [List.foldl_nil] at hr
    rw [hq] at hr
    cases hr
    exact fun d hd => hd
  | cons m t ih =>
    intro s q r hq hr
    unfold applyMoves at hr
    rw [List.foldl_cons] at hr
    have hmid : (s.applyMoveM m).pieces[i]? = some (movePiece m.axis m.slice m.dir q) := by
      unfold CubeState.applyMoveM
      rw [applyMove_pieces_get, hq]
      rfl
    have h2 := ih (s.applyMoveM m) (movePiece m.axis m.slice m.dir q) r hmid hr
    exact fun d hd => h2 (movePiece_keys_subset hd)

/-- **C10**: a piece's set of face-object keys never shrinks.  Through one
`applyMove` every piece keeps all its keys; a piece in the moved slice
additionally carries all four directions of the plane perpendicular to the
move's axis; and every key survives any sequence of subsequent moves. -/
theorem faces_keys_monotone (s : CubeState) (axis : Axis) (slice : ℚ) (dir : ℤ)
    (ms : List Move) (i : ℕ) (p q r : Piece)
    (hp : s.pieces[i]? = some p)
    (hq : (s.applyMove axis slice dir).pieces[i]? = some q)
    (hr : (applyMoves (s.applyMove axis slice dir) ms).pieces[i]? = some r) :
    (p.faces.map Prod.fst ⊆ q.faces.map Prod.fst) ∧
    (|p.coord axis - slice| < 1/10 → planeDirs axis ⊆ q.faces.map Prod.fst) ∧
    (q.faces.map Prod.fst ⊆ r.faces.map Prod.fst) := by
  have hq' : q = movePiece axis slice dir p := by
    rw [applyMove_pieces_get, hp] at hq
    cases hq
    rfl
  subst hq'
  refine ⟨movePiece_keys_subset, ?_, applyMoves_keys_subset ms _ _ r hq hr⟩
  intro hslice
  rw [movePiece_faces_of_slice hslice]
  exact planeDirs_subset_rotatedFaces

end NeuralCube

namespace NeuralCube

/-- Witness for C10: piece 7 of the solved order-2 cube through the move
`(y, 0.5, 1)` and then the further move `(x, 0.5, 1)`. -/
theorem faces_keys_monotone_witness :
    ((solved2.pieces.getD 7 default).faces.map Prod.fst ⊆
      ((solved2.applyMove Axis.y (1/2) 1).pieces.getD 7 default).faces.map Prod.fst) ∧
    (planeDirs Axis.y ⊆
      ((solved2.applyMove Axis.y (1/2) 1).pieces.getD 7 default).faces.map Prod.fst) ∧
    (((solved2.applyMove Axis.y (1/2) 1).pieces.getD 7 default).faces.map Prod.fst ⊆
      ((applyMoves (solved2.applyMove Axis.y (1/2) 1)
        [⟨Axis.x, 1/2, 1⟩]).pieces.getD 7 default).faces.map Prod.fst) := by
  have h := faces_keys_monotone solved2 Axis.y (1/2) 1 [⟨Axis.x, 1/2, 1⟩] 7
    (solved2.pieces.getD 7 default)
    ((solved2.applyMove Axis.y (1/2) 1).pieces.getD 7 default)
    ((applyMoves (solved2.applyMove Axis.y (1/2) 1) [⟨Axis.x, 1/2, 1⟩]).pieces.getD 7 default)
    (by decide) (by decide) (by decide)
  exact ⟨h.1, h.2.1 (by decide), h.2.2⟩

end NeuralCube

namespace NeuralCube

theorem halfInt_of_eq_half {m : ℤ} : HalfInt ((m : ℚ) / 2) := by
  have hd : (((m : ℚ) / 2).den : ℤ) ∣ 2 := by
    have := Rat.den_dvd m 2
    rw [show ((m : ℚ)) / 2 = Rat.divInt m 2 by rw [Rat.divInt_eq_div]; push_cast; ring] at *
    exact this
  have hd2 : ((m : ℚ) / 2).den ∣ 2 := by exact_mod_cast hd
  have := Nat.le_of_dvd (by omega) hd2
  have hpos := ((m : ℚ) / 2).den_pos
  interval_cases h : ((m : ℚ) / 2).den
  · exact Or.inl h
  · exact Or.inr h

theorem halfInt_of_mem_latticeCoords {n : ℕ} {q : ℚ} (h : q ∈ latticeCoords n) : HalfInt q := by
  unfold latticeCoords at h
  rcases List.mem_map.1 h with ⟨k, hk, rfl⟩
  have : (k : ℚ) - ((n : ℚ) - 1) / 2 = ((2 * (k : ℤ) - ((n : ℤ) - 1) : ℤ) : ℚ) / 2 := by
    push_cast
    ring
  rw [this]
  exact halfInt_of_eq_half

theorem jsRound_half {q : ℚ} (h : HalfInt q) : ((jsRound (q * 2) : ℚ)) / 2 = q := by
  obtain ⟨m, rfl⟩ := h.exists_int
  have h1 : (m : ℚ) / 2 * 2 = (m : ℚ) := by ring
  unfold jsRound
  rw [h1, add_comm, Int.floor_add_int]
  norm_num

theorem roundHalf_mem {n : ℕ} {q : ℚ} (h : q ∈ latticeCoords n) :
    ((jsRound (q * 2) : ℚ)) / 2 ∈ latticeCoords n := by
  rw [jsRound_half (halfInt_of_mem_latticeCoords h)]
  exact h

theorem neg_mem_latticeCoords {n : ℕ} {q : ℚ} (h : q ∈ latticeCoords n) :
    -q ∈ latticeCoords n := by
  unfold latticeCoords at *
  rcases List.mem_map.1 h with ⟨k, hk, rfl⟩
  rw [List.mem_range] at hk
  refine List.mem_map.2 ⟨n - 1 - k, List.mem_range.2 (by omega), ?_⟩
  have hcast : ((n - 1 - k : ℕ) : ℚ) = (n : ℚ) - 1 - (k : ℚ) := by
    rw [show n - 1 - k = n - (1 + k) by omega, Nat.cast_sub (by omega : 1 + k ≤ n)]
    push_cast
    ring
  rw [hcast]
  ring

theorem mem_latticePoints {n : ℕ} {v : ℚ × ℚ × ℚ} :
    v ∈ latticePoints n ↔
      v.1 ∈ latticeCoords n ∧ v.2.1 ∈ latticeCoords n ∧ v.2.2 ∈ latticeCoords n := by
  obtain ⟨a, b, c⟩ := v
  unfold latticePoints latticeCoords
  simp only [List.mem_flatMap, List.mem_map]
  constructor
  · rintro ⟨x, hx, y, hy, z, hz, heq⟩
    cases heq
    exact ⟨⟨x, hx, rfl⟩, ⟨y, hy, rfl⟩, ⟨z, hz, rfl⟩⟩
  · rintro ⟨⟨x, hx, hxe⟩, ⟨y, hy, hye⟩, ⟨z, hz, hze⟩⟩
    exact ⟨x, hx, y, hy, z, hz, by rw [hxe, hye, hze]⟩

end NeuralCube

namespace NeuralCube

theorem nodup_latticePoints (n : ℕ) : (latticePoints n).Nodup := by
  unfold latticePoints
  rw [List.nodup_flatMap]
  constructor
  · intro x _
    rw [List.nodup_flatMap]
    constructor
    · intro y _
      refine List.Nodup.map ?_ (List.nodup_range n)
      intro a b hab
      have h3 : ((a : ℚ)) - ((n : ℚ) - 1) / 2 = (b : ℚ) - ((n : ℚ) - 1) / 2 :=
        congrArg (Prod.snd ∘ Prod.snd) hab
      have : ((a : ℚ)) = (b : ℚ) := by linarith
      exact_mod_cast this
    · refine (List.nodup_range n).imp ?_
      intro a b hab
      simp only [Function.onFun]
      rw [List.disjoint_left]
      intro v hva hvb
      rcases List.mem_map.1 hva with ⟨z1, _, he1⟩
      rcases List.mem_map.1 hvb with ⟨z2, _, he2⟩
      have h1 : ((a : ℚ)) - ((n : ℚ) - 1) / 2 = v.2.1 := by rw [← he1]
      have h2 : ((b : ℚ)) - ((n : ℚ) - 1) / 2 = v.2.1 := by rw [← he2]
      have : ((a : ℚ)) = (b : ℚ) := by linarith
      exact hab (by exact_mod_cast this)
  · refine (List.nodup_range n).imp ?_
    intro a b hab
    simp only [Function.onFun]
    rw [List.disjoint_left]
    intro v hva hvb
    rcases List.mem_flatMap.1 hva with ⟨y1, _, hv1⟩
    rcases List.mem_flatMap.1 hvb with ⟨y2, _, hv2⟩
    rcases List.mem_map.1 hv1 with ⟨z1, _, he1⟩
    rcases List.mem_map.1 hv2 with ⟨z2, _, he2⟩
    have h1 : ((a : ℚ)) - ((n : ℚ) - 1) / 2 = v.1 := by rw [← he1]
    have h2 : ((b : ℚ)) - ((n : ℚ) - 1) / 2 = v.1 := by rw [← he2]
    have : ((a : ℚ)) = (b : ℚ) := by linarith
    exact hab (by exact_mod_cast this)

theorem perm_map_self {α : Type} [DecidableEq α] {l : List α} (hl : l.Nodup) (f : α → α)
    (hmem : ∀ a ∈ l, f a ∈ l) (hinj : ∀ a ∈ l, ∀ b ∈ l, f a = f b → a = b) :
    (l.map f).Perm l := by
  have hnd : (l.map f).Nodup := hl.map_on hinj
  have hsub : l.map f ⊆ l := by
    intro b hb
    rcases List.mem_map.1 hb with ⟨a, ha, rfl⟩
    exact hmem a ha
  have hsp := hnd.subperm hsub
  exact hsp.perm_of_length_le (by rw [List.length_map])

theorem piecePos_movePiece (axis : Axis) (slice : ℚ) (dir : ℤ) (p : Piece) :
    piecePos (movePiece axis slice dir p) = posMove axis slice dir (piecePos p) := by
  unfold movePiece posMove piecePos vCoord
  have hc : p.coord axis = vCoord axis (p.x, p.y, p.z) := by
    cases axis <;> rfl
  rw [hc]
  unfold vCoord
  split <;> cases axis <;> rfl

end NeuralCube

namespace NeuralCube

theorem HalfInt.neg {q : ℚ} (h : HalfInt q) : HalfInt (-q) := by
  obtain ⟨m, rfl⟩ := h.exists_int
  have : -((m : ℚ) / 2) = ((-m : ℤ) : ℚ) / 2 := by push_cast; ring
  rw [this]
  exact halfInt_of_eq_half

theorem vCoord_mem {n : ℕ} {axis : Axis} {v : ℚ × ℚ × ℚ} (h : v ∈ latticePoints n) :
    vCoord axis v ∈ latticeCoords n := by
  rw [mem_latticePoints] at h
  cases axis
  · exact h.1
  · exact h.2.1
  · exact h.2.2

theorem inSlice_val {axis : Axis} {dir : ℤ} {v : ℚ × ℚ × ℚ}
    (h1 : HalfInt v.1) (h2 : HalfInt v.2.1) (h3 : HalfInt v.2.2) :
    (((jsRound ((rotatedPos axis dir v.1 v.2.1 v.2.2).1 * 2) : ℚ)) / 2,
      ((jsRound ((rotatedPos axis dir v.1 v.2.1 v.2.2).2.1 * 2) : ℚ)) / 2,
      ((jsRound ((rotatedPos axis dir v.1 v.2.1 v.2.2).2.2 * 2) : ℚ)) / 2) =
      rotatedPos axis dir v.1 v.2.1 v.2.2 := by
  have hh : ∀ w : ℚ, HalfInt w → ((jsRound (w * 2) : ℚ)) / 2 = w := fun w hw => jsRound_half hw
  cases axis <;> dsimp only [rotatedPos] <;>
    refine Prod.ext ?_ (Prod.ext ?_ ?_) <;> dsimp only <;>
    (first
      | exact hh _ h1
      | exact hh _ h2
      | exact hh _ h3
      | (split <;> first
          | exact hh _ h1
          | exact hh _ h2
          | exact hh _ h3
          | exact hh _ h1.neg
          | exact hh _ h2.neg
          | exact hh _ h3.neg))

theorem rotatedPos_injOn {axis : Axis} {dir : ℤ} {a b : ℚ × ℚ × ℚ}
    (heq : rotatedPos axis dir a.1 a.2.1 a.2.2 = rotatedPos axis dir b.1 b.2.1 b.2.2) :
    a = b := by
  obtain ⟨a1, a2, a3⟩ := a
  obtain ⟨b1, b2, b3⟩ := b
  cases axis <;> by_cases hdir : dir = -1 <;>
    simp only [rotatedPos, hdir, if_true, if_false, reduceIte, Prod.mk.injEq, neg_inj] at heq <;>
    obtain ⟨e1, e2, e3⟩ := heq <;>
    refine Prod.ext ?_ (Prod.ext ?_ ?_) <;> dsimp only <;>
    first
      | assumption
      | linarith

theorem vCoord_rotatedPos {axis : Axis} {dir : ℤ} {v : ℚ × ℚ × ℚ} :
    vCoord axis (rotatedPos axis dir v.1 v.2.1 v.2.2) = vCoord axis v := by
  cases axis <;> rfl

theorem posMove_mem {n : ℕ} {axis : Axis} {slice : ℚ} {dir : ℤ} :
    ∀ v ∈ latticePoints n, posMove axis slice dir v ∈ latticePoints n := by
  intro v hv
  have hv' := mem_latticePoints.1 hv
  obtain ⟨h1, h2, h3⟩ := hv'
  unfold posMove
  split
  · rw [inSlice_val (halfInt_of_mem_latticeCoords h1) (halfInt_of_mem_latticeCoords h2)
      (halfInt_of_mem_latticeCoords h3)]
    rw [mem_latticePoints]
    cases axis <;> dsimp only [rotatedPos] <;>
      refine ⟨?_, ?_, ?_⟩ <;>
      (first
        | exact h1
        | exact h2
        | exact h3
        | (split <;> first
            | exact h1
            | exact h2
            | exact h3
            | exact neg_mem_latticeCoords h1
            | exact neg_mem_latticeCoords h2
            | exact neg_mem_latticeCoords h3))
  · exact hv

theorem posMove_injOn {n : ℕ} {axis : Axis} {slice : ℚ} {dir : ℤ}
    (hs : slice ∈ latticeCoords n) :
    ∀ a ∈ latticePoints n, ∀ b ∈ latticePoints n,
      posMove axis slice dir a = posMove axis slice dir b → a = b := by
  intro a ha b hb heq
  have hsh : HalfInt slice := halfInt_of_mem_latticeCoords hs
  have haH := mem_latticePoints.1 ha
  have hbH := mem_latticePoints.1 hb
  have haC : HalfInt (vCoord axis a) := halfInt_of_mem_latticeCoords (vCoord_mem ha)
  have hbC : HalfInt (vCoord axis b) := halfInt_of_mem_latticeCoords (vCoord_mem hb)
  unfold posMove at heq
  by_cases hca : |vCoord axis a - slice| < 1/10 <;>
    by_cases hcb : |vCoord axis b - slice| < 1/10
  · rw [if_pos hca, if_pos hcb,
      inSlice_val (halfInt_of_mem_latticeCoords haH.1) (halfInt_of_mem_latticeCoords haH.2.1)
        (halfInt_of_mem_latticeCoords haH.2.2),
      inSlice_val (halfInt_of_mem_latticeCoords hbH.1) (halfInt_of_mem_latticeCoords hbH.2.1)
        (halfInt_of_mem_latticeCoords hbH.2.2)] at heq
    exact rotatedPos_injOn heq
  · exfalso
    rw [if_pos hca, if_neg hcb,
      inSlice_val (halfInt_of_mem_latticeCoords haH.1) (halfInt_of_mem_latticeCoords haH.2.1)
        (halfInt_of_mem_latticeCoords haH.2.2)] at heq
    have hae : vCoord axis a = slice := (half_eps_iff haC hsh).1 hca
    have : vCoord axis b = slice := by
      rw [← heq, vCoord_rotatedPos, hae]
    exact hcb (by rw [this]; simp)
  · exfalso
    rw [if_neg hca, if_pos hcb,
      inSlice_val (halfInt_of_mem_latticeCoords hbH.1) (halfInt_of_mem_latticeCoords hbH.2.1)
        (halfInt_of_mem_latticeCoords hbH.2.2)] at heq
    have hbe : vCoord axis b = slice := (half_eps_iff hbC hsh).1 hcb
    have : vCoord axis a = slice := by
      rw [heq, vCoord_rotatedPos, hbe]
    exact hca (by rw [this]; simp)
  · rw [if_neg hca, if_neg hcb] at heq
    exact heq

end NeuralCube

namespace NeuralCube

theorem init_positions (n : ℕ) (t : CubeType) :
    (CubeState.init n t).pieces.map piecePos = latticePoints n := by
  unfold CubeState.init latticePoints
  simp only [List.map_flatMap, List.map_map]
  rfl

theorem applyMove_positions (s : CubeState) (m : Move) :
    (s.applyMoveM m).pieces.map piecePos =
      (s.pieces.map piecePos).map (posMove m.axis m.slice m.dir) := by
  unfold CubeState.applyMoveM CubeState.applyMove
  rw [List.map_map, List.map_map]
  congr 1
  funext p
  exact piecePos_movePiece m.axis m.slice m.dir p

theorem step_perm {n : ℕ} {s : CubeState}
    (h : (s.pieces.map piecePos).Perm (latticePoints n)) {m : Move}
    (hm : m ∈ generateLegalMoves n) :
    ((s.applyMoveM m).pieces.map piecePos).Perm (latticePoints n) := by
  rw [applyMove_positions]
  have hs := (mem_generateLegalMoves.1 hm).1
  refine (h.map (posMove m.axis m.slice m.dir)).trans ?_
  exact perm_map_self (nodup_latticePoints n) _ (fun a ha => posMove_mem a ha)
    (posMove_injOn hs)

/-- **C5**: for every order and every sequence of legal moves applied to the
fresh solved state, the pieces' current positions are a permutation of the
`order³` lattice points — each lattice point is occupied by exactly one
piece. -/
theorem reachable_positions_bijection (n : ℕ) (ctype : CubeType) (ms : List Move)
    (h : ∀ m ∈ ms, m ∈ generateLegalMoves n) :
    ((applyMoves (CubeState.init n ctype) ms).pieces.map piecePos).Perm (latticePoints n) := by
  have base : ((CubeState.init n ctype).pieces.map piecePos).Perm (latticePoints n) := by
    rw [init_positions]
  suffices H : ∀ (l : List Move), (∀ m ∈ l, m ∈ generateLegalMoves n) →
      ∀ (s : CubeState), (s.pieces.map piecePos).Perm (latticePoints n) →
      ((applyMoves s l).pieces.map piecePos).Perm (latticePoints n) by
    exact H ms h _ base
  intro l
  induction l with
  | nil => exact fun _ s hs => hs
  | cons m t ih =>
    intro hl s hs
    have h1 : applyMoves s (m :: t) = applyMoves (s.applyMoveM m) t := rfl
    rw [h1]
    exact ih (fun q hq => hl q (List.mem_cons_of_mem _ hq)) _
      (step_perm hs (hl m (List.mem_cons_self m t)))

/-- Witness for C5: order 2 scrambled by the single legal move `(y, 0.5, 1)`. -/
theorem reachable_positions_bijection_witness :
    ((applyMoves (CubeState.init 2 CubeType.normal)
      [⟨Axis.y, 1/2, 1⟩]).pieces.map piecePos).Perm (latticePoints 2) :=
  reachable_positions_bijection 2 CubeType.normal [⟨Axis.y, 1/2, 1⟩] (by decide)

end NeuralCube

namespace NeuralCube

theorem nodup_keys_facesSet {fs : Faces} {k : Dir} {v : Option FaceColor}
    (h : (fs.map Prod.fst).Nodup) : ((facesSet fs k v).map Prod.fst).Nodup := by
  induction fs with
  | nil => simp [facesSet]
  | cons e rest ih =>
    rw [show (e :: rest : Faces) = (e.1, e.2) :: rest by rfl]
    rw [List.map_cons] at h
    obtain ⟨hne, hrest⟩ := List.nodup_cons.1 h
    unfold facesSet
    by_cases hk : e.1 = k
    · rw [if_pos hk]
      rw [List.map_cons]
      refine List.nodup_cons.2 ⟨?_, hrest⟩
      rw [← hk]
      exact hne
    · rw [if_neg hk]
      rw [List.map_cons]
      refine List.nodup_cons.2 ⟨?_, ih hrest⟩
      rw [mem_keys_facesSet_iff]
      rintro (h1 | h1)
      · exact hk h1
      · exact hne h1

theorem nodup_keys_rotatedFaces {fs : Faces} {axis : Axis} {dir : ℤ}
    (h : (fs.map Prod.fst).Nodup) : ((rotatedFaces axis dir fs).map Prod.fst).Nodup := by
  cases axis <;> (simp only [rotatedFaces]; split) <;>
    exact nodup_keys_facesSet (nodup_keys_facesSet (nodup_keys_facesSet (nodup_keys_facesSet h)))

theorem nodup_keys_movePiece {p : Piece} {axis : Axis} {slice : ℚ} {dir : ℤ}
    (h : (p.faces.map Prod.fst).Nodup) :
    (((movePiece axis slice dir p).faces).map Prod.fst).Nodup := by
  unfold movePiece
  split
  · exact nodup_keys_rotatedFaces h
  · exact h

theorem keyPolluted_applyMove {s : CubeState} (h : KeyPolluted s) (m : Move) :
    KeyPolluted (s.applyMoveM m) := by
  obtain ⟨h1, h2, h3, h4, h5⟩ := h
  have hlen : (s.applyMoveM m).pieces.length = s.pieces.length := by
    unfold CubeState.applyMoveM CubeState.applyMove
    exact List.length_map s.pieces _
  have hget : (s.applyMoveM m).pieces.getD 7 default =
      movePiece m.axis m.slice m.dir (s.pieces.getD 7 default) := by
    unfold CubeState.applyMoveM CubeState.applyMove
    dsimp only
    rw [List.getD_eq_getElem _ _ (by simpa [List.length_map] using h3),
      List.getD_eq_getElem _ _ h3, List.getElem_map]
  refine ⟨h1, h2, by omega, ?_, ?_⟩
  · rw [hget]
    exact nodup_keys_movePiece h4
  · rw [hget]
    exact fun d hd => movePiece_keys_subset (h5 hd)

theorem keyPolluted_applyMoves {s : CubeState} (h : KeyPolluted s) (ms : List Move) :
    KeyPolluted (applyMoves s ms) := by
  induction ms generalizing s with
  | nil => exact h
  | cons m t ih =>
    have : applyMoves s (m :: t) = applyMoves (s.applyMoveM m) t := rfl
    rw [this]
    exact ih (keyPolluted_applyMove h m)

theorem length_sortDirs (l : List Dir) : (sortDirs l).length = l.length :=
  (List.perm_insertionSort _ l).length_eq

theorem expectedFaces_len_le (p : Piece) : (expectedFaces (1/2) p).length ≤ 3 := by
  have hpair : ∀ (a : ℚ) (u v : Dir × FaceColor),
      ((if a = (1/2 : ℚ) then [u] else []) ++ (if a = -(1/2 : ℚ) then [v] else [])).length ≤ 1 := by
    intro a u v
    by_cases h1 : a = 1/2 <;> by_cases h2 : a = -(1/2)
    · exfalso
      rw [h1] at h2
      norm_num at h2
    · rw [if_pos h1, if_neg h2]
      simp
    · rw [if_neg h1, if_pos h2]
      simp
    · rw [if_neg h1, if_neg h2]
      simp
  unfold expectedFaces
  have hx := hpair p.x (Dir.pX, FaceColor.R) (Dir.nX, FaceColor.L)
  have hy := hpair p.y (Dir.pY, FaceColor.U) (Dir.nY, FaceColor.D)
  have hz := hpair p.z (Dir.pZ, FaceColor.F) (Dir.nZ, FaceColor.B)
  rw [List.length_append] at hx hy hz
  simp only [List.length_append]
  omega

theorem keys5_card_le {l : List Dir} (hn : l.Nodup) (hsub : keys5 ⊆ l) : 5 ≤ l.length := by
  have h1 : keys5.toFinset ⊆ l.toFinset := by
    intro d hd
    rw [List.mem_toFinset] at *
    exact hsub hd
  have h2 := Finset.card_le_card h1
  rw [List.toFinset_card_of_nodup hn] at h2
  have h3 : keys5.toFinset.card = 5 := by decide
  omega

theorem pieceSolved_false_of_keys {p : Piece}
    (hn : (p.faces.map Prod.fst).Nodup) (hsub : keys5 ⊆ p.faces.map Prod.fst) :
    pieceSolved (1/2) p = false := by
  unfold pieceSolved
  split
  · rfl
  · have hneq : (sortDirs ((expectedFaces (1/2) p).map Prod.fst)).length ≠
        (sortDirs (p.faces.map Prod.fst)).length := by
      rw [length_sortDirs, length_sortDirs, List.length_map]
      have h1 := expectedFaces_len_le p
      have h2 := keys5_card_le hn hsub
      omega
    rw [if_pos hneq]

theorem keyPolluted_not_solved {s : CubeState} (h : KeyPolluted s) :
    s.isSolved = false := by
  obtain ⟨h1, h2, h3, h4, h5⟩ := h
  unfold CubeState.isSolved
  rw [List.all_eq_false]
  refine ⟨s.pieces.getD 7 default, ?_, ?_⟩
  · rw [List.getD_eq_getElem _ _ h3]
    exact List.getElem_mem h3
  · rw [h2, pieceSolved_false_of_keys h4 h5]
    simp

theorem clone_eq_self {s : CubeState} (h : s.offset = ((s.order : ℚ) - 1) / 2) :
    s.clone = s := by
  have hcp : ∀ p : Piece, clonePiece p = p := fun p => rfl
  obtain ⟨o, t, off, ps⟩ := s
  unfold CubeState.clone
  simp only at h
  simp [CubeState.init, h, List.map_congr_left (fun p _ => hcp p)]

end NeuralCube

namespace NeuralCube

theorem bfsExpand_prop {Q : CubeState → Prop} {moves : List Move} {depth : ℕ} :
    ∀ (nb : List (CubeState × Move)) (visited : List (List Char)) (queue : List BfsNode)
      (nodes : ℕ),
      (∀ nd ∈ queue, Q nd.state) → (∀ e ∈ nb, Q e.1) →
      ∀ nd ∈ (bfsExpand moves depth nb visited queue nodes).2.1, Q nd.state := by
  intro nb
  induction nb with
  | nil =>
    intro visited queue nodes hq _ nd hnd
    exact hq nd hnd
  | cons e rest ih =>
    intro visited queue nodes hq hnb nd hnd
    obtain ⟨next, mv⟩ := e
    unfold bfsExpand at hnd
    simp only [] at hnd
    split at hnd
    · exact ih _ _ _ hq (fun x hx => hnb x (List.mem_cons_of_mem _ hx)) nd hnd
    · refine ih _ _ _ ?_ (fun x hx => hnb x (List.mem_cons_of_mem _ hx)) nd hnd
      intro nd2 hnd2
      rcases List.mem_append.1 hnd2 with h | h
      · exact hq nd2 h
      · rw [List.mem_singleton] at h
        rw [h]
        exact hnb (next, mv) (List.mem_cons_self _ _)

theorem bfsLoop_none (allMoves : List Move) (maxDepth maxNodes : ℕ) :
    ∀ (fuel : ℕ) (queue : List BfsNode) (visited : List (List Char)) (nodes : ℕ),
      (∀ nd ∈ queue, KeyPolluted nd.state) →
      bfsLoop (fun st => st.isSolved) (generateNeighborsFn allMoves) maxDepth maxNodes fuel
        queue visited nodes = none := by
  intro fuel
  induction fuel with
  | zero => intros; rfl
  | succ f ih =>
    intro queue visited nodes hq
    cases queue with
    | nil => rfl
    | cons nd rest =>
      have hns := keyPolluted_not_solved (hq nd (List.mem_cons_self nd rest))
      simp only [bfsLoop, hns, Bool.false_eq_true, if_false]
      split
      · exact ih rest visited nodes (fun x hx => hq x (List.mem_cons_of_mem _ hx))
      · split
        · rfl
        · refine ih _ _ _ ?_
          refine bfsExpand_prop _ _ _ _
            (fun x hx => hq x (List.mem_cons_of_mem _ hx)) ?_
          intro e he
          rcases List.mem_map.1 he with ⟨mv, _, rfl⟩
          have hP := hq nd (List.mem_cons_self nd rest)
          have hco : nd.state.clone = nd.state :=
            clone_eq_self (by rw [hP.2.1, hP.1]; norm_num)
          dsimp only
          rw [hco]
          exact keyPolluted_applyMove hP mv

/-- **C1** (code bug evaluated at the failing scramble): for the order-2
scramble consisting of the single legal move `(y, 0.5, 1)` (k = 1 ≤
maxDepth 14, trivially free of immediate inversions), no state reachable by
any move sequence ever satisfies `isSolved()` — the scramble stored
`undefined`-valued face keys that no operation deletes — and therefore
`bfsSolve` returns `moves: null` for *every* `maxDepth`, `maxNodes` and
iteration budget, contradicting the claim that some sufficiently large
`maxNodes` yields a solution. -/
theorem bfsSolve_cannot_solve_scramble :
    (∀ ms : List Move, (applyMoves scrambled2 ms).isSolved = false) ∧
    (∀ maxDepth maxNodes fuel : ℕ,
      bfsSolve scrambled2 (fun st => st.isSolved)
        (generateNeighborsFn (generateLegalMoves 2)) maxDepth maxNodes fuel = none) := by
  have hP : KeyPolluted scrambled2 := by decide
  constructor
  · intro ms
    exact keyPolluted_not_solved (keyPolluted_applyMoves hP ms)
  · intro maxDepth maxNodes fuel
    unfold bfsSolve
    apply bfsLoop_none
    intro nd hnd
    rw [List.mem_singleton] at hnd
    rw [hnd]
    exact hP

end NeuralCube

namespace NeuralCube

theorem optMin_gt {threshold : ℕ} {a b : Option ℕ}
    (ha : ∀ t, a = some t → threshold < t) (hb : ∀ t, b = some t → threshold < t) :
    ∀ t, optMin a b = some t → threshold < t := by
  intro t ht
  cases a with
  | none =>
    simp only [optMin] at ht
    exact hb t ht
  | some x =>
    cases b with
    | none =>
      simp only [optMin, Option.some.injEq] at ht
      subst ht
      exact ha x rfl
    | some y =>
      simp only [optMin, Option.some.injEq] at ht
      subst ht
      have h1 := ha x rfl
      have h2 := hb y rfl
      omega

theorem idaSearchGo_pruned {threshold : ℕ}
    {recur : CubeState → Move → List (List Char) → ℕ → SearchOutcome × List (List Char) × ℕ}
    (hrec : ∀ next mv v n nt v' n',
      recur next mv v n = (SearchOutcome.pruned nt, v', n') → ∀ t, nt = some t → threshold < t)
    (lastMove : Option Move) :
    ∀ (nb : List (CubeState × Move)) (minT : Option ℕ) (visited : List (List Char)) (nodes : ℕ),
      (∀ t, minT = some t → threshold < t) →
      ∀ nt v' n',
        idaSearchGo recur lastMove nb minT visited nodes = (SearchOutcome.pruned nt, v', n') →
        ∀ t, nt = some t → threshold < t := by
  intro nb
  induction nb with
  | nil =>
    intro minT visited nodes hmin nt v' n' heq
    unfold idaSearchGo at heq
    cases heq
    exact hmin
  | cons e rest ih =>
    intro minT visited nodes hmin nt v' n' heq
    obtain ⟨next, mv⟩ := e
    unfold idaSearchGo at heq
    split at heq
    · exact ih minT visited nodes hmin nt v' n' heq
    · split at heq
      · cases heq
      · cases heq
      · rename_i nt2 v2 n2 hrec2
        exact ih _ _ _ (optMin_gt hmin (hrec next mv visited nodes nt2 _ _ hrec2)) nt v' n' heq

end NeuralCube

namespace NeuralCube

theorem idaSearch_pruned (ctx : IdaCtx) (threshold : ℕ) :
    ∀ (k g : ℕ), ctx.maxDepth + 1 - g ≤ k →
      ∀ (node : CubeState) (path : List Move) (lastMove : Option Move)
        (visited : List (List Char)) (nodes : ℕ) (nt : Option ℕ)
        (v' : List (List Char)) (n' : ℕ),
        idaSearch ctx threshold node g path lastMove visited nodes =
          (SearchOutcome.pruned nt, v', n') →
        ∀ t, nt = some t → threshold < t := by
  intro k
  induction k with
  | zero =>
    intro g hk node path lastMove visited nodes nt v' n' heq
    unfold idaSearch at heq
    simp only [] at heq
    split at heq
    · simp at heq
    · split at heq
      · simp at heq
      · split at heq
        · simp only [Prod.mk.injEq, SearchOutcome.pruned.injEq] at heq
          obtain ⟨h1, -, -⟩ := heq
          intro t ht
          rw [← h1, Option.some.injEq] at ht
          rename_i hf _ _
          omega
        · split at heq
          · simp at heq
          · split at heq
            · simp only [Prod.mk.injEq, SearchOutcome.pruned.injEq] at heq
              obtain ⟨h1, -, -⟩ := heq
              intro t ht
              rw [← h1] at ht
              cases ht
            · rename_i hnd
              exfalso
              omega
  | succ k ih =>
    intro g hk node path lastMove visited nodes nt v' n' heq
    unfold idaSearch at heq
    simp only [] at heq
    split at heq
    · simp at heq
    · split at heq
      · simp at heq
      · split at heq
        · simp only [Prod.mk.injEq, SearchOutcome.pruned.injEq] at heq
          obtain ⟨h1, -, -⟩ := heq
          intro t ht
          rw [← h1, Option.some.injEq] at ht
          rename_i hf _ _
          omega
        · split at heq
          · simp at heq
          · split at heq
            · simp only [Prod.mk.injEq, SearchOutcome.pruned.injEq] at heq
              obtain ⟨h1, -, -⟩ := heq
              intro t ht
              rw [← h1] at ht
              cases ht
            · rename_i hnd
              split at heq
              · simp only [Prod.mk.injEq, SearchOutcome.pruned.injEq] at heq
                obtain ⟨h1, -, -⟩ := heq
                intro t ht
                rw [← h1] at ht
                cases ht
              · refine idaSearchGo_pruned ?_ lastMove _ none _ _ (by intro t ht; cases ht)
                  nt v' n' heq
                intro next mv v n nt2 v2 n2 hr
                exact ih (g + 1) (by omega) next (path ++ [mv]) (some mv) v n nt2 v2 n2 hr

end NeuralCube

namespace NeuralCube

theorem idaLoop_not_none (ctx : IdaCtx) (s : CubeState) :
    ∀ (fuel threshold : ℕ) (lastThreshold : ℤ) (nodes : ℕ),
      idaMaxThreshold - threshold < fuel →
      idaLoop ctx s fuel threshold lastThreshold nodes ≠ none := by
  intro fuel
  induction fuel with
  | zero =>
    intro threshold lastT nodes h
    omega
  | succ f ih =>
    intro threshold lastT nodes h
    unfold idaLoop
    split
    · rename_i hth
      split
      · simp
      · simp
      · simp
      · rename_i tv vis nfin heq
        split
        · simp
        · split
          · simp
          · have hgt := idaSearch_pruned ctx threshold (ctx.maxDepth + 1) 0 (le_refl _)
              s [] none [] nodes (some tv) vis nfin heq tv rfl
            exact ih tv (threshold : ℤ) nfin (by omega)
    · simp

/-- **C8**: `idaStarSearch` terminates for every input state, goal test,
neighbor generator, depth bound, node budget and time oracle: the inner
depth-first `search` is structurally bounded by `maxDepth` (it is a total
function), every `nextThreshold` it reports is strictly greater than the
current threshold, and the outer loop therefore runs at most
`maxThreshold = 15` iterations — fuel `maxThreshold + 1` is always enough,
so the fueled model never reports fuel exhaustion. -/
theorem idaStarSearch_terminates (ctx : IdaCtx) (s : CubeState) (fuel : ℕ)
    (h : idaMaxThreshold + 1 ≤ fuel) :
    idaStarSearch ctx s fuel ≠ none := by
  unfold idaStarSearch
  apply idaLoop_not_none
  omega

/-- Witness for C8: a concrete context (goal test `isSolved`, empty neighbor
generator, depth bound 14, node budget 1000000, a clock that never expires)
on the solved order-2 state with fuel 16. -/
theorem idaStarSearch_terminates_witness :
    idaStarSearch
      ⟨fun st => st.isSolved, fun _ _ => [], 14, 1000000, fun _ => false⟩
      solved2 16 ≠ none :=
  idaStarSearch_terminates _ solved2 16 (by decide)

end NeuralCube

namespace NeuralCube

theorem getRef_prefix {st st' : Store} (h : st <+: st') {r : ℕ} (hr : r < st.length) :
    getRef st' r = getRef st r := by
  obtain ⟨t, rfl⟩ := h
  unfold getRef
  rw [List.getD_eq_getElem?_getD, List.getD_eq_getElem?_getD,
    List.getElem?_append_left hr]

theorem alloc_set_fresh (st : Store) (c v : CubeState) :
    setRef (alloc st c).1 (alloc st c).2 v = st ++ [v] := by
  unfold alloc setRef
  simp only []
  rw [List.set_append_right _ _ (le_refl st.length)]
  simp

theorem genNeighborsGo_prefix (r : ℕ) :
    ∀ (ms : List Move) (st : Store), st <+: (genNeighborsGo r ms st).1 := by
  intro ms
  induction ms with
  | nil => intro st; exact List.prefix_rfl
  | cons m t ih =>
    intro st
    unfold genNeighborsGo
    simp only []
    refine List.IsPrefix.trans ?_ (ih _)
    rw [alloc_set_fresh]
    exact List.prefix_append st _

theorem genNeighborsSt_prefix (allMoves : List Move) (st : Store) (r : ℕ)
    (lastMove : Option Move) : st <+: (genNeighborsSt allMoves st r lastMove).1 :=
  genNeighborsGo_prefix r (filterMoves allMoves lastMove) st

theorem bfsLoopSt_prefix (isGoal : CubeState → Bool) (allMoves : List Move)
    (maxDepth maxNodes : ℕ) :
    ∀ (fuel : ℕ) (st : Store) (queue : List (ℕ × List Move × ℕ))
      (visited : List (List Char)) (nodes : ℕ),
      st <+: (bfsLoopSt isGoal allMoves maxDepth maxNodes fuel st queue visited nodes).1 := by
  intro fuel
  induction fuel with
  | zero => intro st queue visited nodes; exact List.prefix_rfl
  | succ f ih =>
    intro st queue visited nodes
    cases queue with
    | nil => exact List.prefix_rfl
    | cons e rest =>
      obtain ⟨r, moves, depth⟩ := e
      unfold bfsLoopSt
      simp only []
      split
      · exact List.prefix_rfl
      · split
        · exact ih st rest visited nodes
        · split
          · exact List.prefix_rfl
          · exact ( genNeighborsSt_prefix allMoves st r moves.getLast?).trans (ih _ _ _ _)

theorem idaSearchGoSt_prefix
    {recur : ℕ → Move → Store → List (List Char) → ℕ →
      Store × SearchOutcome × List (List Char) × ℕ}
    (hrec : ∀ rn mv st v n, st <+: (recur rn mv st v n).1) (lastMove : Option Move) :
    ∀ (nb : List (ℕ × Move)) (minT : Option ℕ) (st : Store) (visited : List (List Char))
      (nodes : ℕ),
      st <+: (idaSearchGoSt recur lastMove nb minT st visited nodes).1 := by
  intro nb
  induction nb with
  | nil => intro minT st visited nodes; exact List.prefix_rfl
  | cons e rest ih =>
    intro minT st visited nodes
    obtain ⟨rn, mv⟩ := e
    unfold idaSearchGoSt
    split
    · exact ih minT st visited nodes
    · split
      · rename_i st' p t v' n' heq
        have := hrec rn mv st visited nodes
        rw [heq] at this
        exact this
      · rename_i st' k v' n' heq
        have := hrec rn mv st visited nodes
        rw [heq] at this
        exact this
      · rename_i st' nt v' n' heq
        have h1 := hrec rn mv st visited nodes
        rw [heq] at h1
        exact h1.trans (ih _ _ _ _)

theorem idaSearchSt_prefix (isGoal : CubeState → Bool) (allMoves : List Move)
    (maxDepth maxNodes : ℕ) (timeUp : ℕ → Bool) (threshold : ℕ) :
    ∀ (k g : ℕ), maxDepth + 1 - g ≤ k →
      ∀ (r : ℕ) (path : List Move) (lastMove : Option Move) (st : Store)
        (visited : List (List Char)) (nodes : ℕ),
        st <+: (idaSearchSt isGoal allMoves maxDepth maxNodes timeUp threshold r g path
          lastMove st visited nodes).1 := by
  intro k
  induction k with
  | zero =>
    intro g hk r path lastMove st visited nodes
    unfold idaSearchSt
    simp only []
    split
    · exact List.prefix_rfl
    · split
      · exact List.prefix_rfl
      · split
        · exact List.prefix_rfl
        · split
          · exact List.prefix_rfl
          · split
            · exact List.prefix_rfl
            · omega
  | succ k ih =>
    intro g hk r path lastMove st visited nodes
    unfold idaSearchSt
    simp only []
    split
    · exact List.prefix_rfl
    · split
      · exact List.prefix_rfl
      · split
        · exact List.prefix_rfl
        · split
          · exact List.prefix_rfl
          · split
            · exact List.prefix_rfl
            · split
              · exact List.prefix_rfl
              · refine ( genNeighborsSt_prefix allMoves st r lastMove).trans ?_
                exact idaSearchGoSt_prefix
                  (fun rn mv st2 v n => ih (g + 1) (by omega) rn (path ++ [mv]) (some mv) st2 v n)
                  lastMove _ _ _ _ _

theorem idaLoopSt_prefix (isGoal : CubeState → Bool) (allMoves : List Move)
    (maxDepth : ℕ) (timeUp : ℕ → Bool) (r : ℕ) :
    ∀ (fuel : ℕ) (st : Store) (threshold : ℕ) (lastThreshold : ℤ) (nodes : ℕ),
      st <+: (idaLoopSt isGoal allMoves maxDepth timeUp r fuel st threshold
        lastThreshold nodes).1 := by
  intro fuel
  induction fuel with
  | zero => intro st threshold lastT nodes; exact List.prefix_rfl
  | succ f ih =>
    intro st threshold lastT nodes
    unfold idaLoopSt
    split
    · have hpre := idaSearchSt_prefix isGoal allMoves maxDepth idaMaxNodes timeUp threshold
        (maxDepth + 1) 0 (le_refl _) r [] none st [] nodes
      split
      · rename_i st' mv t v' n' heq
        rw [heq] at hpre
        exact hpre
      · rename_i st' k v' n' heq
        rw [heq] at hpre
        exact hpre
      · rename_i st' v' n' heq
        rw [heq] at hpre
        exact hpre
      · rename_i st' t v' n' heq
        rw [heq] at hpre
        split
        · exact hpre
        · split
          · exact hpre
          · exact hpre.trans (ih _ _ _ _)
    · exact List.prefix_rfl

theorem solveWithBFSSt_prefix (st : Store) (rStart : ℕ) (order : ℕ) (ctype : CubeType)
    (timeUp : ℕ → Bool) (fuel : ℕ) :
    st <+: (solveWithBFSSt st rStart order ctype timeUp fuel).1 := by
  unfold solveWithBFSSt
  simp only []
  have halloc : st <+: (alloc st (getRef st rStart).clone).1 :=
    List.prefix_append st _
  split
  · exact halloc
  · split
    · split
      · rename_i heq
        have := idaLoopSt_prefix (fun state => state.isSolved) (generateLegalMoves order)
          (bfsCfgMaxDepth order ctype) timeUp (alloc st (getRef st rStart).clone).2 fuel
          (alloc st (getRef st rStart).clone).1
          (heuristic (getRef (alloc st (getRef st rStart).clone).1
            (alloc st (getRef st rStart).clone).2)) (-1) 0
        rw [heq] at this
        exact halloc.trans this
      · rename_i st' o heq
        have := idaLoopSt_prefix (fun state => state.isSolved) (generateLegalMoves order)
          (bfsCfgMaxDepth order ctype) timeUp (alloc st (getRef st rStart).clone).2 fuel
          (alloc st (getRef st rStart).clone).1
          (heuristic (getRef (alloc st (getRef st rStart).clone).1
            (alloc st (getRef st rStart).clone).2)) (-1) 0
        rw [heq] at this
        exact halloc.trans this
    · split
      · rename_i st' mv heq
        have := bfsLoopSt_prefix (fun state => state.isSolved) (generateLegalMoves order)
          (bfsCfgMaxDepth order ctype) (bfsCfgMaxNodes order ctype) fuel
          (alloc st (getRef st rStart).clone).1
          [((alloc st (getRef st rStart).clone).2, [], 0)]
          [(getRef (alloc st (getRef st rStart).clone).1
            (alloc st (getRef st rStart).clone).2).encode] 0
        rw [heq] at this
        exact halloc.trans this
      · rename_i st' heq
        have := bfsLoopSt_prefix (fun state => state.isSolved) (generateLegalMoves order)
          (bfsCfgMaxDepth order ctype) (bfsCfgMaxNodes order ctype) fuel
          (alloc st (getRef st rStart).clone).1
          [((alloc st (getRef st rStart).clone).2, [], 0)]
          [(getRef (alloc st (getRef st rStart).clone).1
            (alloc st (getRef st rStart).clone).2).encode] 0
        rw [heq] at this
        exact halloc.trans this

/-- **C9**: the search never mutates the state object it is given.  In the
store-level model, where `clone()` allocates a fresh heap cell and
`applyMove` mutates the cell it is called on, `solveWithBFS` only ever
appends fresh cells to the heap, so the cell holding the caller's state —
and hence its `encode()` — is bit-for-bit unchanged whether the solver
short-circuits, succeeds, or exhausts its budgets. -/
theorem solveWithBFS_frame (st : Store) (rStart : ℕ) (order : ℕ) (ctype : CubeType)
    (timeUp : ℕ → Bool) (fuel : ℕ) (h : rStart < st.length) :
    getRef (solveWithBFSSt st rStart order ctype timeUp fuel).1 rStart = getRef st rStart ∧
    (getRef (solveWithBFSSt st rStart order ctype timeUp fuel).1 rStart).encode =
      (getRef st rStart).encode := by
  have hpre := solveWithBFSSt_prefix st rStart order ctype timeUp fuel
  have hget := getRef_prefix hpre h
  exact ⟨hget, by rw [hget]⟩

/-- Witness for C9: a heap holding just the solved order-2 state, solved for
order 2 with a clock that never expires and fuel 1. -/
theorem solveWithBFS_frame_witness :
    getRef (solveWithBFSSt [solved2] 0 2 CubeType.normal (fun _ => false) 1).1 0 =
      getRef [solved2] 0 ∧
    (getRef (solveWithBFSSt [solved2] 0 2 CubeType.normal (fun _ => false) 1).1 0).encode =
      (getRef [solved2] 0).encode :=
  solveWithBFS_frame [solved2] 0 2 CubeType.normal (fun _ => false) 1 (by decide)

end NeuralCube

namespace NeuralCube

theorem lexLe_trans : ∀ a b c : List Char, lexLe a b = true → lexLe b c = true →
    lexLe a c = true := by
  intro a
  induction a with
  | nil => intro b c _ _; rfl
  | cons x xs ih =>
    intro b c hab hbc
    cases b with
    | nil => simp [lexLe] at hab
    | cons y ys =>
      cases c with
      | nil => simp [lexLe] at hbc
      | cons z zs =>
        unfold lexLe at hab hbc ⊢
        by_cases hxy : x = y
        · subst hxy
          rw [if_pos rfl] at hab
          by_cases hxz : x = z
          · subst hxz
            rw [if_pos rfl] at hbc ⊢
            exact ih ys zs hab hbc
          · rw [if_neg hxz] at hbc ⊢
            exact hbc
        · rw [if_neg hxy] at hab
          rw [decide_eq_true_eq] at hab
          by_cases hyz : y = z
          · subst hyz
            rw [if_neg hxy]
            rw [decide_eq_true_eq]
            exact hab
          · rw [if_neg hyz] at hbc
            rw [decide_eq_true_eq] at hbc
            have hxz : x ≠ z := by
              intro he
              subst he
              omega
            rw [if_neg hxz, decide_eq_true_eq]
            omega

theorem lexLe_total : ∀ a b : List Char, lexLe a b = true ∨ lexLe b a = true := by
  intro a
  induction a with
  | nil => intro b; exact Or.inl rfl
  | cons x xs ih =>
    intro b
    cases b with
    | nil => exact Or.inr rfl
    | cons y ys =>
      unfold lexLe
      by_cases hxy : x = y
      · subst hxy
        rw [if_pos rfl, if_pos rfl]
        exact ih ys
      · have hyx : y ≠ x := fun h => hxy h.symm
        rw [if_neg hxy, if_neg hyx, decide_eq_true_eq, decide_eq_true_eq]
        have : x.toNat ≠ y.toNat := by
          intro h
          exact hxy (Char.ext (UInt32.ext h))
        omega

theorem lexLe_antisymm : ∀ a b : List Char, lexLe a b = true → lexLe b a = true →
    a = b := by
  intro a
  induction a with
  | nil =>
    intro b _ hba
    cases b with
    | nil => rfl
    | cons y ys => simp [lexLe] at hba
  | cons x xs ih =>
    intro b hab hba
    cases b with
    | nil => simp [lexLe] at hab
    | cons y ys =>
      unfold lexLe at hab hba
      by_cases hxy : x = y
      · subst hxy
        rw [if_pos rfl] at hab hba
        rw [ih ys hab hba]
      · have hyx : y ≠ x := fun h => hxy h.symm
        rw [if_neg hxy, decide_eq_true_eq] at hab
        rw [if_neg hyx, decide_eq_true_eq] at hba
        omega

instance : IsTrans (List Char) TokenLe := ⟨lexLe_trans⟩

instance : IsTotal (List Char) TokenLe := ⟨lexLe_total⟩

instance : IsAntisymm (List Char) TokenLe := ⟨lexLe_antisymm⟩

theorem encode_eq_of_perm {s t : CubeState} (h : s.pieces.Perm t.pieces) :
    s.encode = t.encode := by
  unfold CubeState.encode
  congr 1
  refine List.eq_of_perm_of_sorted ?_ (List.sorted_insertionSort TokenLe _)
    (List.sorted_insertionSort TokenLe _)
  exact (List.perm_insertionSort TokenLe _).trans
    ((h.map tokenChars).trans (List.perm_insertionSort TokenLe _).symm)

end NeuralCube

namespace NeuralCube

theorem sep_split {sep : Char} :
    ∀ (a c b d : List Char), sep ∉ a → sep ∉ c →
      a ++ sep :: b = c ++ sep :: d → a = c ∧ b = d := by
  intro a
  induction a with
  | nil =>
    intro c b d _ hc heq
    cases c with
    | nil =>
      simp only [List.nil_append] at heq
      cases heq
      exact ⟨rfl, rfl⟩
    | cons y ys =>
      simp only [List.nil_append, List.cons_append, List.cons.injEq] at heq
      exfalso
      exact hc (heq.1 ▸ List.mem_cons_self y ys)
  | cons x xs ih =>
    intro c b d ha hc heq
    cases c with
    | nil =>
      simp only [List.cons_append, List.nil_append, List.cons.injEq] at heq
      exfalso
      exact ha (heq.1.symm ▸ List.mem_cons_self x xs)
    | cons y ys =>
      simp only [List.cons_append, List.cons.injEq] at heq
      obtain ⟨rfl, heq2⟩ := heq
      obtain ⟨h1, h2⟩ := ih ys b d (fun h => ha (List.mem_cons_of_mem _ h))
        (fun h => hc (List.mem_cons_of_mem _ h)) heq2
      exact ⟨by rw [h1], h2⟩

theorem joinSep_ne_nil {sep : Char} {c : List Char} {cs : List (List Char)}
    (hc : c ≠ []) : joinSep sep (c :: cs) ≠ [] := by
  cases cs with
  | nil => exact hc
  | cons c2 rest =>
    unfold joinSep
    intro h
    cases c with
    | nil => cases h
    | cons x xs => cases h

theorem joinSep_inj {sep : Char} :
    ∀ (l1 l2 : List (List Char)),
      (∀ a ∈ l1, sep ∉ a ∧ a ≠ []) → (∀ a ∈ l2, sep ∉ a ∧ a ≠ []) →
      joinSep sep l1 = joinSep sep l2 → l1 = l2 := by
  intro l1
  induction l1 with
  | nil =>
    intro l2 _ h2 heq
    cases l2 with
    | nil => rfl
    | cons c cs =>
      exfalso
      exact joinSep_ne_nil (h2 c (List.mem_cons_self c cs)).2 heq.symm
  | cons a as ih =>
    intro l2 h1 h2 heq
    cases l2 with
    | nil =>
      exfalso
      exact joinSep_ne_nil (h1 a (List.mem_cons_self a as)).2 heq
    | cons c cs =>
      cases as with
      | nil =>
        cases cs with
        | nil =>
          unfold joinSep at heq
          rw [heq]
        | cons c2 rest =>
          exfalso
          have heq2 : a = c ++ sep :: joinSep sep (c2 :: rest) := heq
          exact (h1 a (List.mem_cons_self a [])).1
            (heq2 ▸ List.mem_append_right c (List.mem_cons_self sep _))
      | cons a2 arest =>
        cases cs with
        | nil =>
          exfalso
          have heq2 : a ++ sep :: joinSep sep (a2 :: arest) = c := heq
          exact (h2 c (List.mem_cons_self c [])).1
            (heq2 ▸ List.mem_append_right a (List.mem_cons_self sep _))
        | cons c2 crest =>
          have heq2 : a ++ sep :: joinSep sep (a2 :: arest) =
              c ++ sep :: joinSep sep (c2 :: crest) := heq
          obtain ⟨hac, hrest⟩ := sep_split a c _ _
            (h1 a (List.mem_cons_self a _)).1 (h2 c (List.mem_cons_self c _)).1 heq2
          have := ih (c2 :: crest) (fun x hx => h1 x (List.mem_cons_of_mem _ hx))
            (fun x hx => h2 x (List.mem_cons_of_mem _ hx)) hrest
          rw [hac, this]

end NeuralCube

namespace NeuralCube

theorem digitChar_mem (n : ℕ) :
    digitChar n ∈ ['0', '1', '2', '3', '4', '5', '6', '7', '8', '9', '*'] := by
  unfold digitChar
  split_ifs <;> decide

theorem natCharsGo_chars :
    ∀ (fuel n : ℕ) (c : Char), c ∈ natCharsGo fuel n →
      c ∈ ['0', '1', '2', '3', '4', '5', '6', '7', '8', '9', '*'] := by
  intro fuel
  induction fuel with
  | zero => intro n c h; cases h
  | succ f ih =>
    intro n c h
    unfold natCharsGo at h
    split at h
    · rw [List.mem_singleton] at h
      rw [h]
      exact digitChar_mem n
    · rcases List.mem_append.1 h with h1 | h1
      · exact ih _ c h1
      · rw [List.mem_singleton] at h1
        rw [h1]
        exact digitChar_mem _

theorem natChars_chars {n : ℕ} {c : Char} (h : c ∈ natChars n) :
    c ∈ ['0', '1', '2', '3', '4', '5', '6', '7', '8', '9', '*'] :=
  natCharsGo_chars (n + 1) n c h

theorem natChars_ne_nil (n : ℕ) : natChars n ≠ [] := by
  unfold natChars natCharsGo
  split
  · exact fun h => by cases h
  · intro h
    rcases List.append_eq_nil.1 h with ⟨-, h2⟩
    cases h2

theorem colon_not_in_natChars {n : ℕ} : ':' ∉ natChars n := by
  intro h
  have := natChars_chars h
  simp at this

theorem nonnegRatChars_chars {q : ℚ} {c : Char} (h : c ∈ nonnegRatChars q) :
    c ∈ ['0', '1', '2', '3', '4', '5', '6', '7', '8', '9', '*', '.'] := by
  unfold nonnegRatChars at h
  split at h
  · have := natChars_chars h
    simp only [List.mem_cons, List.not_mem_nil, or_false] at this ⊢
    tauto
  · rcases List.mem_append.1 h with h1 | h1
    · have := natChars_chars h1
      simp only [List.mem_cons, List.not_mem_nil, or_false] at this ⊢
      tauto
    · simp only [List.mem_cons, List.not_mem_nil, or_false] at h1 ⊢
      tauto

theorem ratChars_chars {q : ℚ} {c : Char} (h : c ∈ ratChars q) :
    c ∈ ['0', '1', '2', '3', '4', '5', '6', '7', '8', '9', '*', '.', '-'] := by
  unfold ratChars at h
  split at h
  · rcases List.mem_cons.1 h with h1 | h1
    · rw [h1]; decide
    · have := nonnegRatChars_chars h1
      simp only [List.mem_cons, List.not_mem_nil, or_false] at this ⊢
      tauto
  · have := nonnegRatChars_chars h
    simp only [List.mem_cons, List.not_mem_nil, or_false] at this ⊢
    tauto

end NeuralCube

namespace NeuralCube

theorem entryChars_chars {e : Dir × Option FaceColor} {c : Char} (h : c ∈ entryChars e) :
    c ∈ ['+', '-', 'X', 'Y', 'Z', ':', 'R', 'L', 'U', 'D', 'F', 'B', 'N'] := by
  obtain ⟨d, v⟩ := e
  unfold entryChars at h
  rcases List.mem_append.1 h with h1 | h1
  · cases d <;> simp only [dirChars, List.mem_cons, List.not_mem_nil, or_false] at h1 <;>
      rcases h1 with rfl | rfl <;> decide
  · rcases List.mem_cons.1 h1 with rfl | h2
    · decide
    · rw [List.mem_singleton] at h2
      subst h2
      dsimp only
      cases v with
      | none => decide
      | some col => cases col <;> decide

theorem entryChars_ne_nil (e : Dir × Option FaceColor) : entryChars e ≠ [] := by
  obtain ⟨d, v⟩ := e
  unfold entryChars
  cases d <;> exact fun h => by cases h

theorem joinSep_chars {sep : Char} :
    ∀ (l : List (List Char)) (c : Char), c ∈ joinSep sep l →
      c = sep ∨ ∃ a ∈ l, c ∈ a := by
  intro l
  induction l with
  | nil => intro c h; cases h
  | cons a rest ih =>
    intro c h
    cases rest with
    | nil =>
      right
      exact ⟨a, List.mem_cons_self a [], h⟩
    | cons b rest2 =>
      have h2 : c ∈ a ++ sep :: joinSep sep (b :: rest2) := h
      rcases List.mem_append.1 h2 with h3 | h3
      · exact Or.inr ⟨a, List.mem_cons_self a _, h3⟩
      · rcases List.mem_cons.1 h3 with rfl | h4
        · exact Or.inl rfl
        · rcases ih c h4 with h5 | ⟨x, hx, hcx⟩
          · exact Or.inl h5
          · exact Or.inr ⟨x, List.mem_cons_of_mem _ hx, hcx⟩

theorem faceStrChars_chars {fs : Faces} {c : Char} (h : c ∈ faceStrChars fs) :
    c ∈ [',', '+', '-', 'X', 'Y', 'Z', ':', 'R', 'L', 'U', 'D', 'F', 'B', 'N'] := by
  unfold faceStrChars at h
  rcases joinSep_chars _ c h with rfl | ⟨a, ha, hca⟩
  · decide
  · rcases List.mem_map.1 ha with ⟨e, _, rfl⟩
    have := entryChars_chars hca
    simp only [List.mem_cons, List.not_mem_nil, or_false] at this ⊢
    tauto

theorem tokenChars_chars {p : Piece} {c : Char} (h : c ∈ tokenChars p) :
    c ∈ ['0', '1', '2', '3', '4', '5', '6', '7', '8', '9', '*', '.', ',', ':',
      '+', '-', 'X', 'Y', 'Z', 'R', 'L', 'U', 'D', 'F', 'B', 'N'] := by
  unfold tokenChars at h
  have hd : ∀ c2 : Char,
      c2 ∈ ['0', '1', '2', '3', '4', '5', '6', '7', '8', '9', '*'] →
      c2 ∈ ['0', '1', '2', '3', '4', '5', '6', '7', '8', '9', '*', '.', ',', ':',
        '+', '-', 'X', 'Y', 'Z', 'R', 'L', 'U', 'D', 'F', 'B', 'N'] := by
    intro c2 h2
    simp only [List.mem_cons, List.not_mem_nil, or_false] at h2 ⊢
    tauto
  have hr : ∀ c2 : Char,
      c2 ∈ ['0', '1', '2', '3', '4', '5', '6', '7', '8', '9', '*', '.', '-'] →
      c2 ∈ ['0', '1', '2', '3', '4', '5', '6', '7', '8', '9', '*', '.', ',', ':',
        '+', '-', 'X', 'Y', 'Z', 'R', 'L', 'U', 'D', 'F', 'B', 'N'] := by
    intro c2 h2
    simp only [List.mem_cons, List.not_mem_nil, or_false] at h2 ⊢
    tauto
  rcases List.mem_append.1 h with h1 | h1
  · exact hd c (natChars_chars h1)
  · rcases List.mem_cons.1 h1 with rfl | h2
    · decide
    · rcases List.mem_append.1 h2 with h3 | h3
      · exact hr c (ratChars_chars h3)
      · rcases List.mem_cons.1 h3 with rfl | h4
        · decide
        · rcases List.mem_append.1 h4 with h5 | h5
          · exact hr c (ratChars_chars h5)
          · rcases List.mem_cons.1 h5 with rfl | h6
            · decide
            · rcases List.mem_append.1 h6 with h7 | h7
              · exact hr c (ratChars_chars h7)
              · rcases List.mem_cons.1 h7 with rfl | h8
                · decide
                · have hsub : ([',', '+', '-', 'X', 'Y', 'Z', ':', 'R', 'L', 'U', 'D',
                      'F', 'B', 'N'] : List Char) ⊆
                      ['0', '1', '2', '3', '4', '5', '6', '7', '8', '9', '*', '.', ',', ':',
                        '+', '-', 'X', 'Y', 'Z', 'R', 'L', 'U', 'D', 'F', 'B', 'N'] := by
                    intro x hx
                    fin_cases hx <;> decide
                  exact hsub (faceStrChars_chars h8)

theorem tokenChars_ne_nil (p : Piece) : tokenChars p ≠ [] := by
  unfold tokenChars
  intro h
  rcases List.append_eq_nil.1 h with ⟨h1, -⟩
  exact natChars_ne_nil p.id h1

theorem bar_not_in_tokenChars {p : Piece} : '|' ∉ tokenChars p := by
  intro h
  have := tokenChars_chars h
  simp at this

end NeuralCube

namespace NeuralCube

theorem digitVal_digitChar : ∀ n < 10, digitVal (digitChar n) = n := by decide

theorem digitsVal_append_singleton (l : List Char) (c : Char) :
    digitsVal (l ++ [c]) = 10 * digitsVal l + digitVal c := by
  unfold digitsVal
  rw [List.foldl_append]
  rfl

theorem digitsVal_natCharsGo : ∀ fuel n, n < fuel → digitsVal (natCharsGo fuel n) = n := by
  intro fuel
  induction fuel with
  | zero => intro n h; omega
  | succ f ih =>
    intro n h
    unfold natCharsGo
    split
    · rename_i h10
      show digitsVal [digitChar n] = n
      unfold digitsVal
      rw [List.foldl_cons, List.foldl_nil]
      rw [show 10 * 0 + digitVal (digitChar n) = digitVal (digitChar n) by omega]
      exact digitVal_digitChar n h10
    · rename_i h10
      rw [digitsVal_append_singleton, ih (n / 10) (by omega),
        digitVal_digitChar (n % 10) (by omega)]
      omega

theorem natChars_inj {a b : ℕ} (h : natChars a = natChars b) : a = b := by
  have ha := digitsVal_natCharsGo (a + 1) a (by omega)
  have hb := digitsVal_natCharsGo (b + 1) b (by omega)
  unfold natChars at h
  rw [← ha, ← hb, h]

theorem eq_intCast_of_den_one {a : ℚ} (h : a.den = 1) : a = ((a.num : ℚ)) := by
  conv_lhs => rw [← Rat.num_div_den a]
  rw [h]
  simp

theorem den_two_decomp {a : ℚ} (ha : HalfInt a) (h2 : a.den = 2) (h0 : 0 ≤ a) :
    a = ((⌊a⌋ : ℚ)) + 1/2 ∧ 0 ≤ ⌊a⌋ := by
  obtain ⟨m, hm⟩ := ha.exists_int
  rcases Int.even_or_odd m with ⟨k, hk⟩ | ⟨k, hk⟩
  · exfalso
    have he : a = ((k : ℚ)) := by
      rw [hm, hk]
      push_cast
      ring
    rw [he, Rat.den_intCast] at h2
    omega
  · have he : a = ((k : ℚ)) + 1/2 := by
      rw [hm, hk]
      push_cast
      ring
    have hfl : ⌊a⌋ = k := by
      rw [he, Int.floor_int_add]
      norm_num
    have hk0 : 0 ≤ k := by
      by_contra hneg
      push_neg at hneg
      have hk1 : k ≤ -1 := by omega
      have : (k : ℚ) ≤ -1 := by exact_mod_cast hk1
      rw [he] at h0
      linarith
    rw [hfl]
    exact ⟨he, hk0⟩

theorem nonnegRatChars_inj {a b : ℚ} (ha : HalfInt a) (hb : HalfInt b)
    (h0a : 0 ≤ a) (h0b : 0 ≤ b) (h : nonnegRatChars a = nonnegRatChars b) : a = b := by
  unfold nonnegRatChars at h
  by_cases hda : a.den = 1 <;> by_cases hdb : b.den = 1
  · rw [if_pos hda, if_pos hdb] at h
    have hnum := natChars_inj h
    rw [eq_intCast_of_den_one hda, eq_intCast_of_den_one hdb]
    have h1 : 0 ≤ a.num := Rat.num_nonneg.2 h0a
    have h2 : 0 ≤ b.num := Rat.num_nonneg.2 h0b
    have : a.num = b.num := by omega
    rw [this]
  · rw [if_pos hda, if_neg hdb] at h
    exfalso
    have hdot : ('.' : Char) ∈ natChars a.num.toNat := by
      rw [h]
      exact List.mem_append_right _ (List.mem_cons_self _ _)
    have := natChars_chars hdot
    simp at this
  · rw [if_neg hda, if_pos hdb] at h
    exfalso
    have hdot : ('.' : Char) ∈ natChars b.num.toNat := by
      rw [← h]
      exact List.mem_append_right _ (List.mem_cons_self _ _)
    have := natChars_chars hdot
    simp at this
  · rw [if_neg hda, if_neg hdb] at h
    have hda2 : a.den = 2 := by
      rcases ha with h1 | h1
      · exact absurd h1 hda
      · exact h1
    have hdb2 : b.den = 2 := by
      rcases hb with h1 | h1
      · exact absurd h1 hdb
      · exact h1
    obtain ⟨hae, ha0⟩ := den_two_decomp ha hda2 h0a
    obtain ⟨hbe, hb0⟩ := den_two_decomp hb hdb2 h0b
    obtain ⟨h1, -⟩ := List.append_inj' h rfl
    have := natChars_inj h1
    have hfl : ⌊a⌋ = ⌊b⌋ := by omega
    rw [hae, hbe, hfl]

theorem ratChars_inj {a b : ℚ} (ha : HalfInt a) (hb : HalfInt b)
    (h : ratChars a = ratChars b) : a = b := by
  unfold ratChars at h
  by_cases h0a : a < 0 <;> by_cases h0b : b < 0
  · rw [if_pos h0a, if_pos h0b] at h
    rw [List.cons.injEq] at h
    have := nonnegRatChars_inj ha.neg hb.neg (by linarith) (by linarith) h.2
    linarith
  · rw [if_pos h0a, if_neg h0b] at h
    exfalso
    have hminus : ('-' : Char) ∈ nonnegRatChars b := by
      rw [← h]
      exact List.mem_cons_self _ _
    have := nonnegRatChars_chars hminus
    simp at this
  · rw [if_neg h0a, if_pos h0b] at h
    exfalso
    have hminus : ('-' : Char) ∈ nonnegRatChars a := by
      rw [h]
      exact List.mem_cons_self _ _
    have := nonnegRatChars_chars hminus
    simp at this
  · rw [if_neg h0a, if_neg h0b] at h
    exact nonnegRatChars_inj ha hb (by linarith) (by linarith) h

end NeuralCube

namespace NeuralCube

theorem entryChars_inj : ∀ e1 e2 : Dir × Option FaceColor,
    entryChars e1 = entryChars e2 → e1 = e2 := by decide

theorem comma_not_in_entryChars {e : Dir × Option FaceColor} : (',' : Char) ∉ entryChars e := by
  intro h
  have := entryChars_chars h
  simp at this

theorem comma_not_in_ratChars {q : ℚ} : (',' : Char) ∉ ratChars q := by
  intro h
  have := ratChars_chars h
  simp at this

theorem faceStrChars_inj {f1 f2 : Faces} (h : faceStrChars f1 = faceStrChars f2) :
    f1 = f2 := by
  unfold faceStrChars at h
  have hmaps := joinSep_inj (f1.map entryChars) (f2.map entryChars)
    (by
      intro a ha
      rcases List.mem_map.1 ha with ⟨e, _, rfl⟩
      exact ⟨comma_not_in_entryChars, entryChars_ne_nil e⟩)
    (by
      intro a ha
      rcases List.mem_map.1 ha with ⟨e, _, rfl⟩
      exact ⟨comma_not_in_entryChars, entryChars_ne_nil e⟩)
    h
  exact List.map_injective_iff.2 (fun a b hab => entryChars_inj a b hab) hmaps

theorem tokenChars_inj {p q : Piece}
    (hpx : HalfInt p.x) (hpy : HalfInt p.y) (hpz : HalfInt p.z)
    (hqx : HalfInt q.x) (hqy : HalfInt q.y) (hqz : HalfInt q.z)
    (h : tokenChars p = tokenChars q) :
    p.id = q.id ∧ p.x = q.x ∧ p.y = q.y ∧ p.z = q.z ∧ p.faces = q.faces := by
  unfold tokenChars at h
  obtain ⟨hid, h2⟩ := sep_split _ _ _ _ colon_not_in_natChars colon_not_in_natChars h
  obtain ⟨hx, h3⟩ := sep_split _ _ _ _ comma_not_in_ratChars comma_not_in_ratChars h2
  obtain ⟨hy, h4⟩ := sep_split _ _ _ _ comma_not_in_ratChars comma_not_in_ratChars h3
  obtain ⟨hz, h5⟩ := sep_split _ _ _ _ comma_not_in_ratChars comma_not_in_ratChars h4
  exact ⟨natChars_inj hid, ratChars_inj hpx hqx hx, ratChars_inj hpy hqy hy,
    ratChars_inj hpz hqz hz, faceStrChars_inj h5⟩

end NeuralCube

namespace NeuralCube

theorem encode_tokens_perm {s t : CubeState} (h : s.encode = t.encode) :
    (s.pieces.map tokenChars).Perm (t.pieces.map tokenChars) := by
  unfold CubeState.encode at h
  have hsorted := joinSep_inj (List.insertionSort TokenLe (s.pieces.map tokenChars))
    (List.insertionSort TokenLe (t.pieces.map tokenChars))
    (by
      intro a ha
      rcases List.mem_map.1 ((List.perm_insertionSort TokenLe _).subset ha) with ⟨p, _, rfl⟩
      exact ⟨bar_not_in_tokenChars, tokenChars_ne_nil p⟩)
    (by
      intro a ha
      rcases List.mem_map.1 ((List.perm_insertionSort TokenLe _).subset ha) with ⟨p, _, rfl⟩
      exact ⟨bar_not_in_tokenChars, tokenChars_ne_nil p⟩)
    h
  have e1 : (s.pieces.map tokenChars).Perm
      (List.insertionSort TokenLe (s.pieces.map tokenChars)) :=
    (List.perm_insertionSort TokenLe _).symm
  rw [hsorted] at e1
  exact e1.trans (List.perm_insertionSort TokenLe _)

theorem encode_ne_of_content_ne {s t : CubeState}
    (hwfs : WfCoords s) (hwft : WfCoords t)
    (hnodup : (t.pieces.map Piece.id).Nodup)
    (p q : Piece) (hp : p ∈ s.pieces) (hq : q ∈ t.pieces) (hid : p.id = q.id)
    (hdiff : piecePos p ≠ piecePos q ∨ p.faces ≠ q.faces) :
    s.encode ≠ t.encode := by
  intro henc
  have hperm := encode_tokens_perm henc
  have htok : tokenChars p ∈ t.pieces.map tokenChars :=
    hperm.subset (List.mem_map.2 ⟨p, hp, rfl⟩)
  rcases List.mem_map.1 htok with ⟨q', hq', htq⟩
  obtain ⟨hwpx, hwpy, hwpz⟩ := hwfs p hp
  obtain ⟨hwqx, hwqy, hwqz⟩ := hwft q' hq'
  obtain ⟨hid2, hx, hy, hz, hf⟩ := tokenChars_inj hwqx hwqy hwqz hwpx hwpy hwpz htq
  have hqq : q' = q :=
    List.inj_on_of_nodup_map hnodup hq' hq (by rw [hid2, hid])
  subst hqq
  rcases hdiff with hd | hd
  · apply hd
    unfold piecePos
    rw [← hx, ← hy, ← hz]
  · exact hd hf.symm

/-- **C4 counterexample**: two order-2 states whose pieces are pointwise
identical as `(id, position, orientation mapping)` records — `recordStateB`
only permutes the insertion order of the faces object of the piece with
id 7 — yet their `encode()` strings differ, refuting the claim that equal
record sets give equal encodings. -/
theorem encode_insertion_order_counterexample :
    solved2.pieces.map pieceRecord = recordStateB.pieces.map pieceRecord ∧
    solved2.encode ≠ recordStateB.encode := by
  exact ⟨by rfl, by decide⟩

/-- **C4 (amended)**: `encode()` is determined by the pieces as a multiset
of `(id, position, ordered faces-entry sequence)` records — any permutation
of the pieces array gives an equal encoding — and it is injective on such
records: two states (with half-integer coordinates and, on the second
state, duplicate-free ids) that differ in some piece's position or in some
piece's face-entry sequence have different encodings.  (The original
claim's insertion-order-independent "orientation mapping" reading is
refuted by the counterexample.) -/
theorem encode_content_determined (s t : CubeState) :
    (s.pieces.Perm t.pieces → s.encode = t.encode) ∧
    (WfCoords s → WfCoords t → (t.pieces.map Piece.id).Nodup →
      (∃ p ∈ s.pieces, ∃ q ∈ t.pieces, p.id = q.id ∧
        (piecePos p ≠ piecePos q ∨ p.faces ≠ q.faces)) →
      s.encode ≠ t.encode) := by
  constructor
  · exact encode_eq_of_perm
  · rintro h1 h2 h3 ⟨p, hp, q, hq, hid, hdiff⟩
    exact encode_ne_of_content_ne h1 h2 h3 p q hp hq hid hdiff

/-- Witness for C4: the solved order-2 state compared with itself (equal
encodings from a permutation) and with its one-move turn (different piece 7
position, hence different encodings). -/
theorem encode_content_determined_witness :
    solved2.encode = solved2.encode ∧ solved2.encode ≠ turned2.encode := by
  constructor
  · exact (encode_content_determined solved2 solved2).1 (List.Perm.refl _)
  · refine (encode_content_determined solved2 turned2).2 (by decide) (by decide) (by decide)
      ⟨solved2.pieces.getD 7 default, by decide, turned2.pieces.getD 7 default, by decide,
        by decide, Or.inl (by decide)⟩

end NeuralCube
